import Mathlib

/-!
Verification of the delivery rule-evaluation engine of the `test-delivery-date`
Shopify app.  The engine is a set of pure TypeScript functions
(`cartDelayCalculator.ts`, `dateAvailabilityService.ts`,
`slotAvailabilityService.ts`, `cityCutoffService.ts`,
`checkoutEligibilityValidator.ts`).  Each function is shallowly embedded here:
strings are Lean `String`s operated on through their character lists, JS
numbers of the relevant call sites are `Nat`/`Int`, JS `Date` values are civil
dates (year, month, day) plus a wall-clock hour/minute where needed, and
optional / nullable fields are `Option`s.  JS truthiness of the nullable
numeric and string fields is modelled explicitly (`0`, `""`, `null` and
`undefined` are falsy).
-/

namespace Delivery

/-- Whitespace test backing the embedding of `String.prototype.trim`. -/
def isWS (c : Char) : Bool :=
  c.toNat == 32 || c.toNat == 9 || c.toNat == 10 || c.toNat == 13

/-- Decimal digit test, the character class `\\d` / JS `0-9`. -/
def isDigitChar (c : Char) : Bool := 48 ≤ c.toNat && c.toNat ≤ 57

/-- Embedding of `s.trim()`: drop leading and trailing whitespace characters. -/
def jsTrimList (cs : List Char) : List Char :=
  ((cs.dropWhile isWS).reverse.dropWhile isWS).reverse

/-- Embedding of `s.trim()` at the `String` level. -/
def jsTrim (s : String) : String := ⟨jsTrimList s.data⟩

/-- Embedding of `s.toLowerCase()` (the engine only compares ASCII letters). -/
def jsToLower (cs : List Char) : List Char := cs.map Char.toLower

/-- Numeric value of a decimal digit character. -/
def digitVal (c : Char) : Nat := c.toNat - '0'.toNat

/-- Value of an all-digit string as parsed by `parseInt(_, 10)` / `Number(_)`. -/
def digitsToNat (cs : List Char) : Nat := cs.foldl (fun a c => 10 * a + digitVal c) 0

/-! ## Cart delay calculator (`cartDelayCalculator.ts`) -/

/-- Character list of the literal `delay`. -/
def delayChars : List Char := ['d', 'e', 'l', 'a', 'y']

/-- Character list of the literal `cake-`. -/
def cakeDashChars : List Char := ['c', 'a', 'k', 'e', '-']

/-- Shared tail of the match against `/^(?:cake-)?delay(?:-(\d+))?$/`: the part after
the optional `cake-` prefix.  Returns `none` when there is no match, `some none` for a
match without numeric suffix and `some (some ds)` for a match with digit suffix `ds`. -/
def matchDelayCore : List Char → Option (Option (List Char))
  | 'd' :: 'e' :: 'l' :: 'a' :: 'y' :: rest =>
    match rest with
    | [] => some none
    | '-' :: ds => if ds ≠ [] ∧ ds.all isDigitChar then some (some ds) else none
    | _ => none
  | _ => none

/-- Embedding of the anchored regex `/^(?:cake-)?delay(?:-(\d+))?$/` applied to the
already-lowercased tag.  Consuming a leading `cake-` greedily is equivalent to the
regex's optional group because a string starting with `cake-` can never match the
alternative without the prefix (`delay…` starts with `d`, not `c`). -/
def matchDelayTag : List Char → Option (Option (List Char))
  | 'c' :: 'a' :: 'k' :: 'e' :: '-' :: rest => matchDelayCore rest
  | cs => matchDelayCore cs

/-- Normalized tag `tag.trim().toLowerCase()` from `parseDelayFromTag`. -/
def normTag (tag : String) : List Char := jsToLower (jsTrimList tag.data)

/-- Embedding of `parseDelayFromTag` (`cartDelayCalculator.ts` lines 33-46).  The regex
capture is a non-empty digit string, so `parseInt(match[1], 10)` is its decimal value;
the defensive `isNaN(delayValue) || delayValue < 0 ? 0 : delayValue` guard is kept on an
`Int`-typed value. -/
def parseDelayFromTag (tag : String) : Nat :=
  match matchDelayTag (normTag tag) with
  | none => 0
  | some suffixDigits =>
    let delayValue : Int := match suffixDigits with
      | none => 1
      | some ds => (digitsToNat ds : Int)
    if delayValue < 0 then 0 else delayValue.toNat

/-- Modelling of the raw JS call `parseDelayFromTag(x)` where `x` may be absent
(`null`/`undefined`): `tag.trim()` throws a `TypeError` before the body runs, so a
non-string argument never produces a numeric result. -/
def jsParseDelayFromTagCall : Option String → Except String Nat
  | none => Except.error "TypeError: tag.trim is not a function"
  | some tag => Except.ok (parseDelayFromTag tag)

/-- Cart line for delay calculation; `tags := none` models an absent or non-array
`tags` field (the `!product.tags || !Array.isArray(product.tags)` guard). -/
structure CartProduct where
  tags : Option (List String)
deriving DecidableEq

/-- Embedding of `getProductDelay` (`cartDelayCalculator.ts` lines 59-68). -/
def getProductDelay (p : CartProduct) : Nat :=
  match p.tags with
  | none => 0
  | some ts => ts.foldl (fun maxDelay tag => max maxDelay (parseDelayFromTag tag)) 0

/-- Embedding of `calculateCartDelay` (`cartDelayCalculator.ts` lines 97-106).  The
`!products || !Array.isArray(products) || products.length === 0` guard returns 0, which
also is the fold's value on the empty list. -/
def calculateCartDelay (products : List CartProduct) : Nat :=
  if products = [] then 0
  else products.foldl (fun maxDelay p => max maxDelay (getProductDelay p)) 0

/-! ### Fold-max helper lemmas -/

theorem foldl_max_init_le (l : List Nat) (a : Nat) : a ≤ l.foldl max a := by
  induction l generalizing a with
  | nil => simp
  | cons x xs ih => exact le_trans (le_max_left a x) (ih (max a x))

theorem foldl_max_le_of_mem {l : List Nat} {x : Nat} (a : Nat) (h : x ∈ l) :
    x ≤ l.foldl max a := by
  induction l generalizing a with
  | nil => cases h
  | cons y ys ih =>
    rcases List.mem_cons.mp h with rfl | hmem
    · exact le_trans (le_max_right a x) (foldl_max_init_le ys (max a x))
    · exact ih (max a y) hmem

theorem foldl_max_eq_init_or_mem (l : List Nat) (a : Nat) :
    l.foldl max a = a ∨ l.foldl max a ∈ l := by
  induction l generalizing a with
  | nil => exact Or.inl rfl
  | cons x xs ih =>
    have hfold : (x :: xs).foldl max a = xs.foldl max (max a x) := rfl
    rcases ih (max a x) with h | h
    · rcases max_cases a x with ⟨hm, _⟩ | ⟨hm, _⟩
      · exact Or.inl (by rw [hfold, h, hm])
      · exact Or.inr (by rw [hfold, h, hm]; exact List.mem_cons_self x xs)
    · exact Or.inr (List.mem_cons_of_mem x h)

theorem calculateCartDelay_eq_foldl (products : List CartProduct) :
    calculateCartDelay products = (products.map getProductDelay).foldl max 0 := by
  cases products with
  | nil => rfl
  | cons p ps => simp [calculateCartDelay, List.foldl_map]

/-! ### Matcher shape lemmas -/

theorem matchDelayCore_shape (cs : List Char) (r : Option (List Char))
    (h : matchDelayCore cs = some r) :
    (r = none ∧ cs = delayChars) ∨
    (∃ ds, r = some ds ∧ ds ≠ [] ∧ ds.all isDigitChar ∧ cs = delayChars ++ '-' :: ds) := by
  unfold matchDelayCore at h
  split at h
  · rename_i rest
    split at h
    · exact Or.inl ⟨by injection h with h1; exact h1.symm, rfl⟩
    · rename_i ds
      split at h
      · rename_i hcond
        refine Or.inr ⟨ds, ?_, hcond.1, hcond.2, rfl⟩
        injection h with h1
        exact h1.symm
      · exact absurd h (by simp)
    · exact absurd h (by simp)
  · exact absurd h (by simp)

theorem matchDelayTag_shape (cs : List Char) (r : Option (List Char))
    (h : matchDelayTag cs = some r) :
    ∃ pre rest, (pre = [] ∨ pre = cakeDashChars) ∧ cs = pre ++ rest ∧
      matchDelayCore rest = some r := by
  unfold matchDelayTag at h
  split at h
  · rename_i rest
    exact ⟨cakeDashChars, rest, Or.inr rfl, rfl, h⟩
  · exact ⟨[], cs, Or.inl rfl, rfl, h⟩

theorem matchDelayCore_digits (ds : List Char) (h1 : ds ≠ []) (h2 : ds.all isDigitChar) :
    matchDelayCore (delayChars ++ '-' :: ds) = some (some ds) := by
  show (if ds ≠ [] ∧ ds.all isDigitChar then some (some ds) else none) = some (some ds)
  simp [h1, h2]

/-- C6: a tag whose trimmed, lowercased form matches `^(cake-)?delay(-\d+)?$` yields the
parsed numeric suffix when present and 1 otherwise; every non-matching tag yields 0.
The defensive `isNaN(...) || delayValue < 0` fallback cannot fire, because the captured
suffix is a non-empty digit string, whose parsed value is a non-negative number; the
claimed "yields 0 rather than an error" behaviour of that branch is therefore vacuous. -/
theorem parseDelayFromTag_spec (tag : String) :
    (normTag tag = delayChars ∨ normTag tag = cakeDashChars ++ delayChars →
      parseDelayFromTag tag = 1) ∧
    (∀ ds : List Char, ds ≠ [] → ds.all isDigitChar →
      (normTag tag = delayChars ++ '-' :: ds ∨
        normTag tag = cakeDashChars ++ delayChars ++ '-' :: ds) →
      parseDelayFromTag tag = digitsToNat ds) ∧
    (¬ (normTag tag = delayChars ∨ normTag tag = cakeDashChars ++ delayChars ∨
        ∃ ds : List Char, ds ≠ [] ∧ ds.all isDigitChar ∧
          (normTag tag = delayChars ++ '-' :: ds ∨
            normTag tag = cakeDashChars ++ delayChars ++ '-' :: ds)) →
      parseDelayFromTag tag = 0) := by
  refine ⟨?_, ?_, ?_⟩
  · rintro (h | h) <;> rw [parseDelayFromTag, h] <;> rfl
  · rintro ds h1 h2 (h | h) <;> rw [parseDelayFromTag, h]
    · have : matchDelayTag (delayChars ++ '-' :: ds) =
          matchDelayCore (delayChars ++ '-' :: ds) := rfl
      rw [this, matchDelayCore_digits ds h1 h2]
      simp [digitsToNat]
    · have : matchDelayTag (cakeDashChars ++ delayChars ++ '-' :: ds) =
          matchDelayCore (delayChars ++ '-' :: ds) := rfl
      rw [this, matchDelayCore_digits ds h1 h2]
      simp [digitsToNat]
  · intro hno
    rw [parseDelayFromTag]
    cases hm : matchDelayTag (normTag tag) with
    | none => rfl
    | some r =>
      exfalso
      obtain ⟨pre, rest, hpre, hcs, hcore⟩ := matchDelayTag_shape _ _ hm
      rcases matchDelayCore_shape _ _ hcore with ⟨_, hrest⟩ | ⟨ds, _, hne, hdig, hrest⟩
      · rcases hpre with rfl | rfl
        · exact hno (Or.inl (by simpa [hrest] using hcs))
        · exact hno (Or.inr (Or.inl (by simpa [hrest] using hcs)))
      · refine hno (Or.inr (Or.inr ⟨ds, hne, hdig, ?_⟩))
        rcases hpre with rfl | rfl
        · exact Or.inl (by simpa [hrest] using hcs)
        · exact Or.inr (by simpa [hrest] using hcs)

/-- Witness for C6 at the concrete tag `"cake-delay-3"`. -/
theorem parseDelayFromTag_spec_witness :
    (['3'] : List Char) ≠ [] ∧ parseDelayFromTag "cake-delay-3" = digitsToNat ['3'] :=
  ⟨by decide, (parseDelayFromTag_spec "cake-delay-3").2.1 ['3'] (by decide) (by decide)
    (Or.inr (by decide))⟩

/-- C7: `calculateCartDelay` is the maximum — never the sum — over all products of the
per-product maximum tag delay; an empty cart or an absent/non-array `tags` field
contributes 0; the result is always non-negative; and the cart
`[{tags:["delay"]}, {tags:["delay-3"]}]` yields 3, not 4. -/
theorem calculateCartDelay_is_max (products : List CartProduct) :
    (∀ p ∈ products, getProductDelay p ≤ calculateCartDelay products) ∧
    (products ≠ [] → ∃ p ∈ products, calculateCartDelay products = getProductDelay p) ∧
    calculateCartDelay [] = 0 ∧
    (∀ p : CartProduct, p.tags = none → getProductDelay p = 0) ∧
    (∀ p : CartProduct, p.tags = some [] → getProductDelay p = 0) ∧
    0 ≤ calculateCartDelay products ∧
    calculateCartDelay [⟨some ["delay"]⟩, ⟨some ["delay-3"]⟩] = 3 ∧
    calculateCartDelay [⟨some ["delay"]⟩, ⟨some ["delay-3"]⟩] ≠ 4 := by
  refine ⟨?_, ?_, rfl, ?_, ?_, Nat.zero_le _, by decide, by decide⟩
  · intro p hp
    rw [calculateCartDelay_eq_foldl]
    exact foldl_max_le_of_mem 0 (List.mem_map_of_mem getProductDelay hp)
  · intro hne
    rcases foldl_max_eq_init_or_mem (products.map getProductDelay) 0 with h | h
    · obtain ⟨p0, hp0⟩ := List.exists_mem_of_ne_nil products hne
      refine ⟨p0, hp0, ?_⟩
      have hle : getProductDelay p0 ≤ calculateCartDelay products := by
        rw [calculateCartDelay_eq_foldl]
        exact foldl_max_le_of_mem 0 (List.mem_map_of_mem getProductDelay hp0)
      have hz : calculateCartDelay products = 0 := by rw [calculateCartDelay_eq_foldl, h]
      omega
    · obtain ⟨p0, hp0, hval⟩ := List.mem_map.mp h
      exact ⟨p0, hp0, by rw [calculateCartDelay_eq_foldl, hval]⟩
  · intro p hp
    simp [getProductDelay, hp]
  · intro p hp
    simp [getProductDelay, hp]

/-- Witness for C7 at a concrete two-product cart. -/
theorem calculateCartDelay_is_max_witness :
    ([(⟨some ["delay"]⟩ : CartProduct), ⟨some ["delay-3"]⟩] ≠ []) ∧
    (∃ p ∈ [(⟨some ["delay"]⟩ : CartProduct), ⟨some ["delay-3"]⟩],
      calculateCartDelay [⟨some ["delay"]⟩, ⟨some ["delay-3"]⟩] = getProductDelay p) :=
  ⟨by decide, (calculateCartDelay_is_max [⟨some ["delay"]⟩, ⟨some ["delay-3"]⟩]).2.1
    (by decide)⟩

/-- C9 counterexample: calling `parseDelayFromTag` with a `null`/`undefined` argument
does not complete with the integer 0 — `tag.trim()` throws a `TypeError` — so the claim
that evaluation yields 0 for non-string inputs fails at the input `null`. -/
theorem parseDelayFromTag_null_throws :
    jsParseDelayFromTagCall none ≠ Except.ok 0 ∧
    jsParseDelayFromTagCall none = Except.error "TypeError: tag.trim is not a function" :=
  ⟨by simp [jsParseDelayFromTagCall], rfl⟩

/-- C9 (amended): `parseDelayFromTag` is total over all genuine strings — every string
argument evaluates to a natural-number result, and any unrecognized string yields 0;
only a missing (`null`/`undefined`) argument escapes this, by throwing. -/
theorem parseDelayFromTag_total (tag : String) :
    ∃ n : Nat, jsParseDelayFromTagCall (some tag) = Except.ok n ∧
      (matchDelayTag (normTag tag) = none → n = 0) := by
  refine ⟨parseDelayFromTag tag, rfl, fun h => ?_⟩
  rw [parseDelayFromTag, h]

/-- Witness for C9's amended theorem at the unrecognized tag `"gift"`. -/
theorem parseDelayFromTag_total_witness :
    ∃ n : Nat, jsParseDelayFromTagCall (some "gift") = Except.ok n ∧
      (matchDelayTag (normTag "gift") = none → n = 0) :=
  parseDelayFromTag_total "gift"

/-! ## Civil dates

A JS `Date` constructed at local midnight is modelled by its civil calendar
components.  `nextDay` models `d.setDate(d.getDate() + 1)` on a component-valid
date, and `addDays` (with a non-negative count, the only way the engine calls
it) iterates it. -/

/-- Gregorian leap-year rule, as JS `new Date` implements it. -/
def isLeap (y : Nat) : Bool := y % 4 == 0 && (y % 100 != 0 || y % 400 == 0)

/-- Length of month `m` (1-12) of year `y`. -/
def daysInMonth (y : Nat) : Nat → Nat
  | 2 => if isLeap y then 29 else 28
  | 4 => 30
  | 6 => 30
  | 9 => 30
  | 11 => 30
  | _ => 31

/-- Civil calendar date (local time zone, as the engine assumes throughout). -/
structure CivilDate where
  year : Nat
  month : Nat
  day : Nat
deriving DecidableEq

/-- Component validity: exactly the states a JS `Date` can be in (after its
constructor's normalization). -/
def ValidDate (c : CivilDate) : Prop :=
  1 ≤ c.month ∧ c.month ≤ 12 ∧ 1 ≤ c.day ∧ c.day ≤ daysInMonth c.year c.month

instance (c : CivilDate) : Decidable (ValidDate c) := by
  unfold ValidDate; infer_instance

/-- Embedding of `d.setDate(d.getDate() + 1)` on a component-valid date. -/
def nextDay (c : CivilDate) : CivilDate :=
  if c.day < daysInMonth c.year c.month then ⟨c.year, c.month, c.day + 1⟩
  else if c.month < 12 then ⟨c.year, c.month + 1, 1⟩
  else ⟨c.year + 1, 1, 1⟩

/-- Embedding of `addDays` (`dateAvailabilityService.ts` lines 318-322) for the
non-negative day counts the engine passes it. -/
def addDays (c : CivilDate) (days : Nat) : CivilDate := nextDay^[days] c

/-- Reference instant: a civil date plus local wall-clock hour and minute, the only
parts of a JS `Date` the cutoff service reads (`getHours`, `getMinutes`,
`getFullYear`, `getMonth`, `getDate`). -/
structure Instant where
  date : CivilDate
  hour : Nat
  minute : Nat
deriving DecidableEq

/-! ## City cutoff service (`cityCutoffService.ts`) -/

/-- Delivery city (string-handle variant used by `cityCutoffService.ts`). -/
structure DeliveryCity where
  id : String
  name : String
  isSpecial : Bool
  cutoffTime : Option String
deriving DecidableEq

/-- Default cutoff when a city has no (truthy) cutoff configured. -/
def DEFAULT_CUTOFF_TIME : String := "23:59"

/-- Shape part of the regex `^(\d{1,2}):(\d{2})$`, applied to the trimmed input. -/
def parseTimeChars : List Char → Option (Nat × Nat)
  | [h1, ':', m1, m2] =>
    if isDigitChar h1 ∧ isDigitChar m1 ∧ isDigitChar m2 then
      some (digitVal h1, digitsToNat [m1, m2])
    else none
  | [h1, h2, ':', m1, m2] =>
    if isDigitChar h1 ∧ isDigitChar h2 ∧ isDigitChar m1 ∧ isDigitChar m2 then
      some (digitsToNat [h1, h2], digitsToNat [m1, m2])
    else none
  | _ => none

/-- Embedding of `parseTime` (`cityCutoffService.ts` lines 31-51): trim, match
`^(\d{1,2}):(\d{2})$`, parse, then range-check hours 0-23 and minutes 0-59 (the lower
bounds are automatic for digit strings). -/
def parseTime (timeStr : String) : Option (Nat × Nat) :=
  if timeStr = "" then none
  else
    match parseTimeChars (jsTrimList timeStr.data) with
    | none => none
    | some (hours, minutes) =>
      if hours ≤ 23 ∧ minutes ≤ 59 then some (hours, minutes) else none

/-- Embedding of `getCityCutoffTime`: `city.cutoffTime || DEFAULT_CUTOFF_TIME`
(the empty string is falsy). -/
def getCityCutoffTime (city : DeliveryCity) : String :=
  match city.cutoffTime with
  | none => DEFAULT_CUTOFF_TIME
  | some s => if s = "" then DEFAULT_CUTOFF_TIME else s

/-- Embedding of `isBeforeCutoff` (`cityCutoffService.ts` lines 75-94). -/
def isBeforeCutoff (cutoffTime : String) (currentTime : Instant) : Bool :=
  match parseTime cutoffTime with
  | none => false
  | some (hours, minutes) =>
    if currentTime.hour < hours then true
    else if currentTime.hour = hours ∧ currentTime.minute < minutes then true
    else false

/-- Embedding of `isSameDayDeliveryAvailable` (`cityCutoffService.ts` lines 120-126). -/
def isSameDayDeliveryAvailable (city : DeliveryCity) (currentTime : Instant) : Bool :=
  isBeforeCutoff (getCityCutoffTime city) currentTime

/-- Embedding of `getMinimumDeliveryDate` (`cityCutoffService.ts` lines 157-176):
`today` is the civil date of `currentTime` at local midnight. -/
def getMinimumDeliveryDate (city : DeliveryCity) (currentTime : Instant)
    (baseDelay : Nat) : CivilDate :=
  let today := currentTime.date
  let sameDayAvailable := isSameDayDeliveryAvailable city currentTime
  let totalDelay := if sameDayAvailable then baseDelay else baseDelay + 1
  addDays today totalDelay

/-- C8: `isBeforeCutoff` returns true exactly when the cutoff string parses as a valid
time of day (1-2-digit hour 0-23, 2-digit minute 0-59) and the current local
(hour, minute) is lexicographically strictly before it; an unparseable cutoff always
yields false (cutoff treated as passed), never an exception — the embedding is a total
function. -/
theorem isBeforeCutoff_spec (cutoffTime : String) (now : Instant) :
    (isBeforeCutoff cutoffTime now = true ↔
      ∃ h m, parseTime cutoffTime = some (h, m) ∧
        (now.hour < h ∨ (now.hour = h ∧ now.minute < m))) ∧
    (parseTime cutoffTime = none → isBeforeCutoff cutoffTime now = false) := by
  constructor
  · unfold isBeforeCutoff
    cases hp : parseTime cutoffTime with
    | none => simp
    | some hm =>
      obtain ⟨h, m⟩ := hm
      constructor
      · intro htrue
        refine ⟨h, m, rfl, ?_⟩
        by_cases h1 : now.hour < h
        · exact Or.inl h1
        · by_cases h2 : now.hour = h ∧ now.minute < m
          · exact Or.inr h2
          · simp [h1, h2] at htrue
      · rintro ⟨h', m', heq, hlt⟩
        rw [Option.some_inj, Prod.mk.injEq] at heq
        obtain ⟨rfl, rfl⟩ := heq
        rcases hlt with h1 | h2
        · simp [h1]
        · by_cases h1 : now.hour < h <;> simp [h1, h2]
  · intro hp
    unfold isBeforeCutoff
    rw [hp]

/-- Witness for C8 at the unparseable cutoff `"invalid"`. -/
theorem isBeforeCutoff_spec_witness :
    parseTime "invalid" = none ∧ isBeforeCutoff "invalid" ⟨⟨2024, 12, 24⟩, 10, 0⟩ = false :=
  ⟨by decide, (isBeforeCutoff_spec "invalid" ⟨⟨2024, 12, 24⟩, 10, 0⟩).2 (by decide)⟩

/-- C1: the minimum delivery date is the civil date of `now` at local midnight plus
`cartDelay` days when same-day delivery is still available, and plus `cartDelay + 1`
days otherwise; with cutoff `"14:00"`: Dec 24 10:00 and delay 0 give Dec 24,
Dec 24 15:00 and delay 0 give Dec 25, and Dec 24 15:00 with delay 2 give Dec 27. -/
theorem getMinimumDeliveryDate_spec (city : DeliveryCity) (now : Instant)
    (cartDelay : Nat) :
    (isSameDayDeliveryAvailable city now = true →
      getMinimumDeliveryDate city now cartDelay = addDays now.date cartDelay) ∧
    (isSameDayDeliveryAvailable city now = false →
      getMinimumDeliveryDate city now cartDelay = addDays now.date (cartDelay + 1)) ∧
    getMinimumDeliveryDate ⟨"1", "Downtown", false, some "14:00"⟩
      ⟨⟨2024, 12, 24⟩, 10, 0⟩ 0 = ⟨2024, 12, 24⟩ ∧
    getMinimumDeliveryDate ⟨"1", "Downtown", false, some "14:00"⟩
      ⟨⟨2024, 12, 24⟩, 15, 0⟩ 0 = ⟨2024, 12, 25⟩ ∧
    getMinimumDeliveryDate ⟨"1", "Downtown", false, some "14:00"⟩
      ⟨⟨2024, 12, 24⟩, 15, 0⟩ 2 = ⟨2024, 12, 27⟩ := by
  refine ⟨?_, ?_, by decide, by decide, by decide⟩
  · intro h
    simp [getMinimumDeliveryDate, h]
  · intro h
    simp [getMinimumDeliveryDate, h]

/-- Witness for C1 at the concrete city and instants of the claim. -/
theorem getMinimumDeliveryDate_spec_witness :
    isSameDayDeliveryAvailable ⟨"1", "Downtown", false, some "14:00"⟩
      ⟨⟨2024, 12, 24⟩, 10, 0⟩ = true ∧
    getMinimumDeliveryDate ⟨"1", "Downtown", false, some "14:00"⟩
      ⟨⟨2024, 12, 24⟩, 10, 0⟩ 0 =
      addDays (⟨⟨2024, 12, 24⟩, 10, 0⟩ : Instant).date 0 :=
  ⟨by decide, (getMinimumDeliveryDate_spec ⟨"1", "Downtown", false, some "14:00"⟩
    ⟨⟨2024, 12, 24⟩, 10, 0⟩ 0).1 (by decide)⟩

/-! ## Date normalization (`dateAvailabilityService.ts`)

`new Date(year, month - 1, day)` may roll the year downwards (month 0, day 0),
so the constructor model works with an `Int` year; the dates the engine keeps
are always component-valid with a `Nat` year. -/

/-- Gregorian leap-year rule over an `Int` year. -/
def isLeapZ (y : Int) : Bool := y % 4 == 0 && (y % 100 != 0 || y % 400 == 0)

/-- Length of month `m` (1-12) of `Int` year `y`. -/
def daysInMonthZ (y : Int) : Nat → Nat
  | 2 => if isLeapZ y then 29 else 28
  | 4 => 30
  | 6 => 30
  | 9 => 30
  | 11 => 30
  | _ => 31

/-- Forward day-overflow normalization of JS `new Date`: while the day exceeds the
month length, move to the next month.  The fuel is the day value itself, which bounds
the number of steps since every month is at least 28 days long. -/
def normDayFwd : Nat → Int → Nat → Nat → Int × Nat × Nat
  | 0, y, m, d => (y, m, d)
  | fuel + 1, y, m, d =>
    if d ≤ daysInMonthZ y m then (y, m, d)
    else if m < 12 then normDayFwd fuel y (m + 1) (d - daysInMonthZ y m)
    else normDayFwd fuel (y + 1) 1 (d - daysInMonthZ y m)

/-- Embedding of `new Date(y, m - 1, d)` for natural components with `m, d ≤ 99` (the
ranges 2-digit groups can produce): the month index `m - 1` is normalized into
year/month, day 0 selects the previous month's last day, and day overflow rolls
forward.  Result: `(getFullYear(), getMonth() + 1, getDate())`. -/
def jsMkDate (y m d : Nat) : Int × Nat × Nat :=
  let ym : Int × Nat :=
    if m = 0 then ((y : Int) - 1, 12)
    else ((y : Int) + (((m - 1) / 12 : Nat) : Int), (m - 1) % 12 + 1)
  if d = 0 then
    if ym.2 = 1 then (ym.1 - 1, 12, 31)
    else (ym.1, ym.2 - 1, daysInMonthZ ym.1 (ym.2 - 1))
  else normDayFwd d ym.1 ym.2 d

/-- Embedding of `isValidDateComponents` (`dateAvailabilityService.ts` lines 70-89):
range prechecks, then the `new Date` round-trip comparison of year, month and day
(`getMonth() === month - 1` is compared as `getMonth() + 1 = month`, which is the same
condition). -/
def isValidDateComponents (year month day : Nat) : Bool :=
  if month < 1 ∨ month > 12 then false
  else if day < 1 ∨ day > 31 then false
  else jsMkDate year month day == ((year : Int), month, day)

/-- Shape-and-value match for `^(\d{4})-(\d{2})-(\d{2})$`: the three digit groups. -/
def matchISOChars : List Char → Option (Nat × Nat × Nat)
  | [y1, y2, y3, y4, s1, m1, m2, s2, d1, d2] =>
    if s1 = '-' ∧ s2 = '-' ∧ isDigitChar y1 ∧ isDigitChar y2 ∧ isDigitChar y3 ∧ isDigitChar y4 ∧
        isDigitChar m1 ∧ isDigitChar m2 ∧ isDigitChar d1 ∧ isDigitChar d2 then
      some (digitsToNat [y1, y2, y3, y4], digitsToNat [m1, m2], digitsToNat [d1, d2])
    else none
  | _ => none

/-- Match for `^(\d{2})\/(\d{2})\/(\d{4})$`, returning `(year, month, day)` values and
the rebuilt canonical character list `year-month-day` (the `padStart(2, "0")` calls are
no-ops on the 2-digit groups). -/
def matchEuroChars : List Char → Option (Nat × Nat × Nat × List Char)
  | [d1, d2, s1, m1, m2, s2, y1, y2, y3, y4] =>
    if s1 = '/' ∧ s2 = '/' ∧ isDigitChar d1 ∧ isDigitChar d2 ∧ isDigitChar m1 ∧ isDigitChar m2 ∧
        isDigitChar y1 ∧ isDigitChar y2 ∧ isDigitChar y3 ∧ isDigitChar y4 then
      some (digitsToNat [y1, y2, y3, y4], digitsToNat [m1, m2], digitsToNat [d1, d2],
        [y1, y2, y3, y4, '-', m1, m2, '-', d1, d2])
    else none
  | _ => none

/-- Embedding of `normalizeDate` (`dateAvailabilityService.ts` lines 28-60): the empty
string is falsy; the ISO branch returns the trimmed input itself; the European branch
returns the rebuilt canonical string. -/
def normalizeDate (dateStr : String) : Option String :=
  if dateStr = "" then none
  else
    match matchISOChars (jsTrimList dateStr.data) with
    | some (year, month, day) =>
      if isValidDateComponents year month day then some (jsTrim dateStr) else none
    | none =>
      match matchEuroChars (jsTrimList dateStr.data) with
      | some (year, month, day, rebuilt) =>
        if isValidDateComponents year month day then some ⟨rebuilt⟩ else none
      | none => none

/-- Embedding of `parseDate` (`dateAvailabilityService.ts` lines 116-124): the
canonical string produced by `normalizeDate` is split and `Number`-converted back into
its (already validated) components, and `new Date(y, m - 1, d)` of valid components is
the civil date itself (lemma `jsMkDate_valid`). -/
def parseDate (dateStr : String) : Option CivilDate :=
  match normalizeDate dateStr with
  | none => none
  | some ns =>
    match matchISOChars ns.data with
    | some (year, month, day) => some ⟨year, month, day⟩
    | none => none

/-! ### Calendar lemmas -/

theorem isLeapZ_natCast (y : Nat) : isLeapZ (y : Int) = isLeap y := by
  unfold isLeapZ isLeap
  rw [Bool.eq_iff_iff]
  simp only [Bool.and_eq_true, Bool.or_eq_true, beq_iff_eq, bne_iff_ne]
  omega

theorem daysInMonthZ_natCast (y m : Nat) : daysInMonthZ (y : Int) m = daysInMonth y m := by
  unfold daysInMonthZ daysInMonth
  have h := isLeapZ_natCast y
  rcases m with _ | _ | _ | _ | _ | _ | _ | _ | _ | _ | _ | _ | m <;> simp [h]

theorem daysInMonth_ge (y m : Nat) : 28 ≤ daysInMonth y m := by
  unfold daysInMonth
  by_cases hL : isLeap y <;>
    rcases m with _ | _ | _ | _ | _ | _ | _ | _ | _ | _ | _ | _ | m <;>
    simp [hL]

theorem daysInMonth_le (y m : Nat) : daysInMonth y m ≤ 31 := by
  unfold daysInMonth
  by_cases hL : isLeap y <;>
    rcases m with _ | _ | _ | _ | _ | _ | _ | _ | _ | _ | _ | _ | m <;>
    simp [hL]

theorem normDayFwd_stop (fuel : Nat) (y : Int) (m d : Nat) (hf : 1 ≤ fuel)
    (h : d ≤ daysInMonthZ y m) : normDayFwd fuel y m d = (y, m, d) := by
  cases fuel with
  | zero => omega
  | succ f => simp [normDayFwd, h]

theorem jsMkDate_valid (y m d : Nat) (h1 : 1 ≤ m) (h2 : m ≤ 12) (h3 : 1 ≤ d)
    (h4 : d ≤ daysInMonth y m) : jsMkDate y m d = ((y : Int), m, d) := by
  unfold jsMkDate
  have hm0 : ¬ m = 0 := by omega
  have hdiv : (m - 1) / 12 = 0 := by omega
  have hmod : (m - 1) % 12 + 1 = m := by omega
  have hd0 : ¬ d = 0 := by omega
  simp only [hm0, if_false, hdiv, hmod, hd0, Nat.cast_zero, add_zero]
  exact normDayFwd_stop d (y : Int) m d (by omega)
    (by rw [daysInMonthZ_natCast]; exact h4)

theorem isValidDateComponents_iff (y m d : Nat) :
    isValidDateComponents y m d = true ↔
      1 ≤ m ∧ m ≤ 12 ∧ 1 ≤ d ∧ d ≤ daysInMonth y m := by
  unfold isValidDateComponents
  constructor
  · intro h
    split at h
    · exact absurd h (by simp)
    split at h
    · exact absurd h (by simp)
    rename_i hm hd
    push_neg at hm hd
    obtain ⟨hm1, hm2⟩ := hm
    obtain ⟨hd1, hd2⟩ := hd
    have heq : jsMkDate y m d = ((y : Int), m, d) := by rwa [beq_iff_eq] at h
    refine ⟨by omega, by omega, by omega, ?_⟩
    by_contra hgt
    push_neg at hgt
    have hm12 : m < 12 := by
      by_contra h12
      have hmeq : m = 12 := by omega
      subst hmeq
      have h31 : daysInMonth y 12 = 31 := rfl
      omega
    have hdim : daysInMonthZ (y : Int) m = daysInMonth y m := daysInMonthZ_natCast y m
    have hdimS : daysInMonthZ (y : Int) (m + 1) = daysInMonth y (m + 1) :=
      daysInMonthZ_natCast y (m + 1)
    have hge := daysInMonth_ge y m
    have hgeS := daysInMonth_ge y (m + 1)
    have hle := daysInMonth_le y m
    rw [jsMkDate] at heq
    rw [if_neg (by omega : ¬ m = 0)] at heq
    have hdiv : (m - 1) / 12 = 0 := by omega
    have hmod : (m - 1) % 12 + 1 = m := by omega
    rw [hdiv, hmod] at heq
    simp only [Nat.cast_zero, add_zero, if_neg (by omega : ¬ d = 0)] at heq
    have hfuel : d = (d - 1) + 1 := by omega
    rw [hfuel] at heq
    simp only [normDayFwd] at heq
    rw [if_neg (by omega), if_pos hm12] at heq
    rw [normDayFwd_stop (d - 1) (y : Int) (m + 1) _ (by omega) (by omega)] at heq
    have hcontra : m + 1 = m := congrArg (fun p => p.2.1) heq
    omega
  · rintro ⟨h1, h2, h3, h4⟩
    have := daysInMonth_le y m
    rw [if_neg (by omega), if_neg (by omega), jsMkDate_valid y m d h1 h2 h3 h4]
    exact beq_self_eq_true _

theorem matchEuroChars_ISO_none (cs : List Char) (x : Nat × Nat × Nat × List Char)
    (h : matchEuroChars cs = some x) : matchISOChars cs = none := by
  unfold matchEuroChars at h
  split at h
  · rename_i d1 d2 s1 m1 m2 s2 y1 y2 y3 y4
    split at h
    · rename_i hcond
      obtain ⟨hs1, hs2, hrest⟩ := hcond
      subst hs1
      simp [matchISOChars, isDigitChar]
    · exact absurd h (by simp)
  · exact absurd h (by simp)

theorem matchEuroChars_rebuilt (cs : List Char) (y m d : Nat) (rebuilt : List Char)
    (h : matchEuroChars cs = some (y, m, d, rebuilt)) :
    matchISOChars rebuilt = some (y, m, d) := by
  unfold matchEuroChars at h
  split at h
  · rename_i d1 d2 s1 m1 m2 s2 y1 y2 y3 y4
    split at h
    · rename_i hcond
      obtain ⟨hs1, hs2, hd1, hd2, hm1, hm2, hy1, hy2, hy3, hy4⟩ := hcond
      rw [Option.some_inj] at h
      obtain ⟨hy, hmm, hdd, hrb⟩ : y = digitsToNat [y1, y2, y3, y4] ∧
          m = digitsToNat [m1, m2] ∧ d = digitsToNat [d1, d2] ∧
          rebuilt = [y1, y2, y3, y4, '-', m1, m2, '-', d1, d2] := by
        have h1 := congrArg (fun p => p.1) h
        have h2 := congrArg (fun p => p.2.1) h
        have h3 := congrArg (fun p => p.2.2.1) h
        have h4 := congrArg (fun p => p.2.2.2) h
        exact ⟨h1.symm, h2.symm, h3.symm, h4.symm⟩
      subst hy hmm hdd hrb
      simp [matchISOChars, hd1, hd2, hm1, hm2, hy1, hy2, hy3, hy4]
    · exact absurd h (by simp)
  · exact absurd h (by simp)

/-- C5: `normalizeDate` returns the canonical `YYYY-MM-DD` form exactly when the
trimmed input matches `YYYY-MM-DD` or `DD/MM/YYYY` and encodes a real calendar date —
month 1-12, day 1-31, and the constructed `new Date` round-tripping to the same
components, which happens precisely when the day is at most the month's length — and
returns null otherwise; `"25/12/2024"` gives `"2024-12-25"`, while `"31/02/2024"` and
`"2024-13-01"` give null. -/
theorem normalizeDate_spec (dateStr : String) :
    (∀ y m d, matchISOChars (jsTrimList dateStr.data) = some (y, m, d) →
      normalizeDate dateStr =
        if isValidDateComponents y m d then some (jsTrim dateStr) else none) ∧
    (∀ y m d rebuilt, matchEuroChars (jsTrimList dateStr.data) = some (y, m, d, rebuilt) →
      normalizeDate dateStr =
        if isValidDateComponents y m d then some ⟨rebuilt⟩ else none) ∧
    (matchISOChars (jsTrimList dateStr.data) = none →
      matchEuroChars (jsTrimList dateStr.data) = none →
      normalizeDate dateStr = none) ∧
    (∀ y m d : Nat, isValidDateComponents y m d = true ↔
      1 ≤ m ∧ m ≤ 12 ∧ 1 ≤ d ∧ d ≤ daysInMonth y m) ∧
    normalizeDate "25/12/2024" = some "2024-12-25" ∧
    normalizeDate "31/02/2024" = none ∧
    normalizeDate "2024-13-01" = none := by
  refine ⟨?_, ?_, ?_, isValidDateComponents_iff, by decide, by decide, by decide⟩
  · intro y m d hm
    by_cases h0 : dateStr = ""
    · subst h0
      exact Option.noConfusion hm
    · simp only [normalizeDate, if_neg h0, hm]
  · intro y m d rebuilt hm
    by_cases h0 : dateStr = ""
    · subst h0
      exact Option.noConfusion hm
    · have hiso := matchEuroChars_ISO_none _ _ hm
      simp only [normalizeDate, if_neg h0, hiso, hm]
  · intro hiso heuro
    by_cases h0 : dateStr = ""
    · simp [normalizeDate, h0]
    · simp only [normalizeDate, if_neg h0, hiso, heuro]

/-- Witness for C5 at the concrete ISO input `"2024-12-25"`. -/
theorem normalizeDate_spec_witness :
    matchISOChars (jsTrimList "2024-12-25".data) = some (2024, 12, 25) ∧
    normalizeDate "2024-12-25" =
      (if isValidDateComponents 2024 12 25 then some (jsTrim "2024-12-25") else none) :=
  ⟨by decide, (normalizeDate_spec "2024-12-25").1 2024 12 25 (by decide)⟩

/-! ## Checkout eligibility validator (`checkoutEligibilityValidator.ts`) -/

/-- Error message constants (`ERROR_MESSAGES` in the source). -/
def FULL_NAME_REQUIRED : String := "Full name is required"

def PHONE_NUMBER_REQUIRED : String := "Phone number is required"

def PHONE_NUMBER_INVALID : String := "Phone number format is invalid"

def DELIVERY_ADDRESS_REQUIRED : String := "Delivery address is required"

def DELIVERY_DATE_REQUIRED : String := "Delivery date is required"

def DELIVERY_DATE_INVALID : String := "Delivery date format is invalid"

def DELIVERY_TIME_SLOT_REQUIRED : String := "Delivery time slot is required"

/-- Embedding of `isNonEmpty`: a string whose trim is non-empty (the `typeof` check is
carried by the `String` type). -/
def isNonEmpty (value : String) : Bool := !(jsTrimList value.data).isEmpty

/-- Embedding of `String.prototype.split("-")` at the character level. -/
def splitDashAux : List Char → List Char → List (List Char)
  | [], acc => [acc.reverse]
  | '-' :: rest, acc => acc.reverse :: splitDashAux rest []
  | c :: rest, acc => splitDashAux rest (c :: acc)

/-- Splitting a string's characters on `'-'`. -/
def splitDash (cs : List Char) : List (List Char) := splitDashAux cs []

/-- Embedding of `Number(s)` for the strings this validator feeds it: surrounding
whitespace is ignored, the empty string is 0, an all-digit string is its decimal value,
and anything else is `NaN` (`none`). -/
def jsNumber (cs : List Char) : Option Nat :=
  let t := jsTrimList cs
  if t.isEmpty then some 0
  else if t.all isDigitChar then some (digitsToNat t) else none

/-- Embedding of `validateFullName`. -/
def validateFullName (fullName : String) : List String :=
  if !isNonEmpty fullName then [FULL_NAME_REQUIRED] else []

/-- Embedding of `validatePhoneNumber`: required non-blank, then at least 7 digits
after stripping every non-digit character (`replace(/\D/g, "")`). -/
def validatePhoneNumber (phoneNumber : String) : List String :=
  if !isNonEmpty phoneNumber then [PHONE_NUMBER_REQUIRED]
  else
    let digitsOnly := phoneNumber.data.filter isDigitChar
    if digitsOnly.length < 7 then [PHONE_NUMBER_INVALID] else []

/-- Embedding of `validateDeliveryAddress`. -/
def validateDeliveryAddress (deliveryAddress : String) : List String :=
  if !isNonEmpty deliveryAddress then [DELIVERY_ADDRESS_REQUIRED] else []

/-- Embedding of `validateDeliveryDate` (`checkoutEligibilityValidator.ts` lines
110-138): required non-blank; the `^\d{4}-\d{2}-\d{2}$` shape is tested on the trimmed
string (`matchISOChars` matches exactly when that regex does); then the raw string is
split on `-`, `Number`-converted, and round-tripped through `new Date`.  A `NaN`
component makes the JS round-trip comparison false, modelled by the `none` branches. -/
def validateDeliveryDate (deliveryDate : String) : List String :=
  if !isNonEmpty deliveryDate then [DELIVERY_DATE_REQUIRED]
  else if (matchISOChars (jsTrimList deliveryDate.data)).isNone then
    [DELIVERY_DATE_INVALID]
  else
    match (splitDash deliveryDate.data).map jsNumber with
    | some year :: some month :: some day :: _ =>
      if jsMkDate year month day == ((year : Int), month, day) then []
      else [DELIVERY_DATE_INVALID]
    | _ => [DELIVERY_DATE_INVALID]

/-- Embedding of `validateDeliveryTimeSlot`: the slot id is a JS number here, and
`!deliveryTimeSlot || typeof deliveryTimeSlot !== "number" || deliveryTimeSlot <= 0`
rejects 0 (falsy) and every non-positive value. -/
def validateDeliveryTimeSlot (deliveryTimeSlot : Int) : List String :=
  if deliveryTimeSlot = 0 ∨ deliveryTimeSlot ≤ 0 then [DELIVERY_TIME_SLOT_REQUIRED]
  else []

/-- Checkout form fields (numeric-slot variant of `CheckoutFields`). -/
structure CheckoutFields where
  fullName : String
  phoneNumber : String
  deliveryAddress : String
  deliveryDate : String
  deliveryTimeSlot : Int
deriving DecidableEq

/-- Result shape of `validateCheckout`. -/
structure CheckoutValidationResult where
  isValid : Bool
  errors : List String
deriving DecidableEq

/-- Embedding of `validateCheckout` (`checkoutEligibilityValidator.ts` lines 199-215). -/
def validateCheckout (fields : CheckoutFields) : CheckoutValidationResult :=
  let errors :=
    validateFullName fields.fullName ++
    validatePhoneNumber fields.phoneNumber ++
    validateDeliveryAddress fields.deliveryAddress ++
    validateDeliveryDate fields.deliveryDate ++
    validateDeliveryTimeSlot fields.deliveryTimeSlot
  ⟨errors.length == 0, errors⟩

/-- C4: `validateCheckout` concatenates the five field validators' errors in the fixed
order name, phone, address, date, slot, and `isValid` holds exactly when that list is
empty; the concrete fields
`{fullName:"", phoneNumber:"123", deliveryAddress:"123 Main St", deliveryDate:"",
deliveryTimeSlot: 0}` produce exactly the four errors full-name-required,
phone-invalid-format, delivery-date-required and slot-required, in that order. -/
theorem validateCheckout_spec (fields : CheckoutFields) :
    (validateCheckout fields).errors =
      validateFullName fields.fullName ++ validatePhoneNumber fields.phoneNumber ++
      validateDeliveryAddress fields.deliveryAddress ++
      validateDeliveryDate fields.deliveryDate ++
      validateDeliveryTimeSlot fields.deliveryTimeSlot ∧
    ((validateCheckout fields).isValid = true ↔ (validateCheckout fields).errors = []) ∧
    validateCheckout ⟨"", "123", "123 Main St", "", 0⟩ =
      ⟨false, [FULL_NAME_REQUIRED, PHONE_NUMBER_INVALID, DELIVERY_DATE_REQUIRED,
        DELIVERY_TIME_SLOT_REQUIRED]⟩ := by
  refine ⟨rfl, ?_, by decide⟩
  show ((validateCheckout fields).errors.length == 0) = true ↔ _
  rw [beq_iff_eq, List.length_eq_zero]

/-! ## Slot availability service (`slotAvailabilityService.ts`) -/

/-- Time slot (numeric-id, `isActive` variant of the type). -/
structure TimeSlot where
  id : Nat
  shop : String
  startTime : String
  endTime : String
  isActive : Bool
  label : Option String
deriving DecidableEq

/-- Slot disable rule with an inclusive date range and optional city scope. -/
structure SlotDisableRule where
  id : Nat
  shop : String
  timeSlotId : Nat
  cityId : Option Nat
  startDate : String
  endDate : Option String
  reason : Option String
deriving DecidableEq

/-- Result record of a slot availability check. -/
structure SlotAvailabilityResult where
  slot : TimeSlot
  disabled : Bool
  reason : Option String
deriving DecidableEq

/-- JS truthiness of an optional number: `null`/`undefined` and 0 are falsy. -/
def truthyNum : Option Nat → Bool
  | none => false
  | some n => n != 0

/-- JS truthiness of an optional string: `null`/`undefined` and `""` are falsy. -/
def truthyStr : Option String → Bool
  | none => false
  | some s => s != ""

/-- JS `<` on strings: lexicographic comparison by character code. -/
def jsStrLt : List Char → List Char → Bool
  | [], [] => false
  | [], _ :: _ => true
  | _ :: _, [] => false
  | a :: as, b :: bs =>
    if a.toNat < b.toNat then true
    else if b.toNat < a.toNat then false
    else jsStrLt as bs

/-- Embedding of `isDateInRange` (`slotAvailabilityService.ts` lines 27-35); string
comparison of canonical dates, and a falsy `endDate` leaves the range open-ended. -/
def isDateInRange (date startDate : String) (endDate : Option String) : Bool :=
  if jsStrLt date.data startDate.data then false
  else if truthyStr endDate ∧ jsStrLt (endDate.getD "").data date.data then false
  else true

/-- Embedding of `checkSlotActive` (lines 43-51), as a `(disabled, reason)` pair. -/
def checkSlotActive (slot : TimeSlot) : Bool × Option String :=
  if !slot.isActive then (true, some "Slot is inactive") else (false, none)

/-- Reason string of a matched date-scoped rule: its own reason when truthy, else the
generic message. -/
def dateRuleReason (r : SlotDisableRule) (date : String) : String :=
  match r.reason with
  | some rs => if rs = "" then "Disabled on " ++ date else "Disabled: " ++ rs
  | none => "Disabled on " ++ date

/-- Reason string of a matched city-scoped rule. -/
def cityRuleReason (r : SlotDisableRule) (date : String) : String :=
  match r.reason with
  | some rs => if rs = "" then "Disabled for this city on " ++ date else "Disabled: " ++ rs
  | none => "Disabled for this city on " ++ date

/-- Predicate of the `rules.find(...)` in `checkDateSpecificDisable`:
`rule.timeSlotId === slotId && !rule.cityId && isDateInRange(...)`. -/
def dateRulePred (slotId : Nat) (date : String) (r : SlotDisableRule) : Bool :=
  r.timeSlotId == slotId && !truthyNum r.cityId && isDateInRange date r.startDate r.endDate

/-- Embedding of `checkDateSpecificDisable` (lines 61-82). -/
def checkDateSpecificDisable (slotId : Nat) (date : String)
    (rules : List SlotDisableRule) : Bool × Option String :=
  match rules.find? (dateRulePred slotId date) with
  | some r => (true, some (dateRuleReason r date))
  | none => (false, none)

/-- Predicate of the `rules.find(...)` in `checkCityDateDisable`:
`rule.cityId === cityId` is strict number equality, never true for an absent rule city. -/
def cityRulePred (slotId : Nat) (date : String) (cityId : Nat) (r : SlotDisableRule) : Bool :=
  r.timeSlotId == slotId && r.cityId == some cityId &&
    isDateInRange date r.startDate r.endDate

/-- Embedding of `checkCityDateDisable` (lines 93-115). -/
def checkCityDateDisable (slotId : Nat) (date : String) (cityId : Nat)
    (rules : List SlotDisableRule) : Bool × Option String :=
  match rules.find? (cityRulePred slotId date cityId) with
  | some r => (true, some (cityRuleReason r date))
  | none => (false, none)

/-- Embedding of `checkSlotAvailability` (lines 126-154): three ordered checks, and the
city check runs only under `if (cityId)`, i.e. for a truthy selected city id. -/
def checkSlotAvailability (slot : TimeSlot) (date : String) (cityId : Option Nat)
    (rules : List SlotDisableRule) : SlotAvailabilityResult :=
  let activeCheck := checkSlotActive slot
  if activeCheck.1 then ⟨slot, true, activeCheck.2⟩
  else
    let dateCheck := checkDateSpecificDisable slot.id date rules
    if dateCheck.1 then ⟨slot, true, dateCheck.2⟩
    else if truthyNum cityId then
      let cityDateCheck := checkCityDateDisable slot.id date (cityId.getD 0) rules
      if cityDateCheck.1 then ⟨slot, true, cityDateCheck.2⟩
      else ⟨slot, false, none⟩
    else ⟨slot, false, none⟩

/-- Embedding of `getAvailableSlots` (lines 183-199); the null-rules branch calls the
same per-slot check with `[]`. -/
def getAvailableSlots (slots : List TimeSlot) (date : String) (cityId : Option Nat)
    (rules : List SlotDisableRule) : List SlotAvailabilityResult :=
  slots.map (fun slot => checkSlotAvailability slot date cityId rules)

/-- Embedding of `getEnabledSlots` (lines 214-223). -/
def getEnabledSlots (slots : List TimeSlot) (date : String) (cityId : Option Nat)
    (rules : List SlotDisableRule) : List TimeSlot :=
  ((getAvailableSlots slots date cityId rules).filter (fun r => !r.disabled)).map
    (fun r => r.slot)

/-- Embedding of `isSlotAvailable` (lines 235-249). -/
def isSlotAvailable (slotId : Nat) (slots : List TimeSlot) (date : String)
    (cityId : Option Nat) (rules : List SlotDisableRule) : Bool :=
  match slots.find? (fun s => s.id == slotId) with
  | none => false
  | some slot => !(checkSlotAvailability slot date cityId rules).disabled

/-- C3 counterexample: an active slot, selected city 1, and a single rule scoped to
city 0 covering the date.  The claim says the slot stays available (the rule has a
`cityId`, and it differs from the selected city), but the code treats `cityId: 0` as
falsy, so the date-scoped check fires and disables the slot for every city. -/
theorem checkSlotAvailability_cityZero :
    (checkSlotAvailability ⟨1, "shop", "09:00", "12:00", true, none⟩ "2024-12-25"
      (some 1) [⟨7, "shop", 1, some 0, "2024-12-25", none, none⟩]).disabled = true ∧
    (⟨7, "shop", 1, some 0, "2024-12-25", none, none⟩ : SlotDisableRule).cityId ≠ none ∧
    (⟨7, "shop", 1, some 0, "2024-12-25", none, none⟩ : SlotDisableRule).cityId ≠ some 1 :=
  ⟨by decide, by decide, by decide⟩

/-- C3 (amended): stateless evaluation with three ordered checks, first match wins —
inactive slot (reason "Slot is inactive", ignoring rules, date, city); otherwise the
first rule for this slot with JS-falsy `cityId` (absent or 0) covering the date;
otherwise, only when the selected city id is truthy (present and nonzero), the first
rule for this slot scoped to exactly that city and covering the date; otherwise
available with no reason.  Only the first matching check's reason is surfaced. -/
theorem checkSlotAvailability_spec (slot : TimeSlot) (date : String)
    (cityId : Option Nat) (rules : List SlotDisableRule) :
    (slot.isActive = false →
      checkSlotAvailability slot date cityId rules = ⟨slot, true, some "Slot is inactive"⟩) ∧
    (slot.isActive = true →
      (∀ r, rules.find? (dateRulePred slot.id date) = some r →
        checkSlotAvailability slot date cityId rules =
          ⟨slot, true, some (dateRuleReason r date)⟩) ∧
      (rules.find? (dateRulePred slot.id date) = none →
        (∀ c, cityId = some c → c ≠ 0 →
          (∀ r, rules.find? (cityRulePred slot.id date c) = some r →
            checkSlotAvailability slot date cityId rules =
              ⟨slot, true, some (cityRuleReason r date)⟩) ∧
          (rules.find? (cityRulePred slot.id date c) = none →
            checkSlotAvailability slot date cityId rules = ⟨slot, false, none⟩)) ∧
        (truthyNum cityId = false →
          checkSlotAvailability slot date cityId rules = ⟨slot, false, none⟩))) ∧
    ((checkSlotAvailability slot date cityId rules).disabled = false ↔
      slot.isActive = true ∧
      (¬ ∃ r ∈ rules, dateRulePred slot.id date r = true) ∧
      (∀ c, cityId = some c → c ≠ 0 →
        ¬ ∃ r ∈ rules, cityRulePred slot.id date c r = true)) := by
  refine ⟨?_, ?_, ?_⟩
  · intro hin
    simp [checkSlotAvailability, checkSlotActive, hin]
  · intro hact
    refine ⟨?_, ?_⟩
    · intro r hr
      simp [checkSlotAvailability, checkSlotActive, hact, checkDateSpecificDisable, hr]
    · intro hnone
      refine ⟨?_, ?_⟩
      · intro c hc hcne
        subst hc
        have htr : truthyNum (some c) = true := by simp [truthyNum, hcne]
        refine ⟨?_, ?_⟩
        · intro r hr
          simp [checkSlotAvailability, checkSlotActive, hact, checkDateSpecificDisable,
            hnone, htr, checkCityDateDisable, hr]
        · intro hrn
          simp [checkSlotAvailability, checkSlotActive, hact, checkDateSpecificDisable,
            hnone, htr, checkCityDateDisable, hrn]
      · intro hfalse
        simp [checkSlotAvailability, checkSlotActive, hact, checkDateSpecificDisable,
          hnone, hfalse]
  · by_cases hact : slot.isActive
    · cases hd : rules.find? (dateRulePred slot.id date) with
      | some r =>
        have hdis : (checkSlotAvailability slot date cityId rules).disabled = true := by
          simp [checkSlotAvailability, checkSlotActive, hact, checkDateSpecificDisable, hd]
        rw [hdis]
        simp only [Bool.true_eq_false, false_iff]
        rintro ⟨-, hno, -⟩
        exact hno ⟨r, List.mem_of_find?_eq_some hd, List.find?_some hd⟩
      | none =>
        have hnoDate : ¬ ∃ r ∈ rules, dateRulePred slot.id date r = true := by
          rw [List.find?_eq_none] at hd
          rintro ⟨r, hr, hp⟩
          exact hd r hr hp
        cases hcid : cityId with
        | none =>
          have : checkSlotAvailability slot date none rules = ⟨slot, false, none⟩ := by
            simp [checkSlotAvailability, checkSlotActive, hact, checkDateSpecificDisable,
              hd, truthyNum]
          rw [this]
          simp only [true_iff]
          exact ⟨hact, hnoDate, by rintro c hc; exact absurd hc (by simp)⟩
        | some c =>
          by_cases hc0 : c = 0
          · subst hc0
            have : checkSlotAvailability slot date (some 0) rules = ⟨slot, false, none⟩ := by
              simp [checkSlotAvailability, checkSlotActive, hact, checkDateSpecificDisable,
                hd, truthyNum]
            rw [this]
            simp only [true_iff]
            refine ⟨hact, hnoDate, ?_⟩
            rintro c' hc' hcne
            rw [Option.some_inj] at hc'
            omega
          · have htr : truthyNum (some c) = true := by simp [truthyNum, hc0]
            cases hcr : rules.find? (cityRulePred slot.id date c) with
            | some r =>
              have hdis : (checkSlotAvailability slot date (some c) rules).disabled = true := by
                simp [checkSlotAvailability, checkSlotActive, hact, checkDateSpecificDisable,
                  hd, htr, checkCityDateDisable, hcr]
              rw [hdis]
              simp only [Bool.true_eq_false, false_iff]
              rintro ⟨-, -, hno⟩
              exact hno c rfl hc0 ⟨r, List.mem_of_find?_eq_some hcr, List.find?_some hcr⟩
            | none =>
              have : checkSlotAvailability slot date (some c) rules = ⟨slot, false, none⟩ := by
                simp [checkSlotAvailability, checkSlotActive, hact, checkDateSpecificDisable,
                  hd, htr, checkCityDateDisable, hcr]
              rw [this]
              simp only [true_iff]
              refine ⟨hact, hnoDate, ?_⟩
              rintro c' hc' hcne
              rw [Option.some_inj] at hc'
              subst hc'
              rw [List.find?_eq_none] at hcr
              rintro ⟨r, hr, hp⟩
              exact hcr r hr hp
    · have hin : slot.isActive = false := by simpa using hact
      have hdis : (checkSlotAvailability slot date cityId rules).disabled = true := by
        simp [checkSlotAvailability, checkSlotActive, hin]
      rw [hdis]
      simp [hin]

/-- Witness for C3's amended theorem: an inactive slot is disabled with the inactivity
reason regardless of rules. -/
theorem checkSlotAvailability_spec_witness :
    (⟨2, "shop", "12:00", "15:00", false, none⟩ : TimeSlot).isActive = false ∧
    checkSlotAvailability ⟨2, "shop", "12:00", "15:00", false, none⟩ "2024-12-25"
      (some 1) [⟨7, "shop", 2, none, "2024-12-25", none, none⟩] =
      ⟨⟨2, "shop", "12:00", "15:00", false, none⟩, true, some "Slot is inactive"⟩ :=
  ⟨rfl, (checkSlotAvailability_spec ⟨2, "shop", "12:00", "15:00", false, none⟩
    "2024-12-25" (some 1) [⟨7, "shop", 2, none, "2024-12-25", none, none⟩]).1 rfl⟩

/-- C10: `isSlotAvailable` returns false when no slot in the collection has the
requested id; otherwise it reports exactly whether `checkSlotAvailability` on the first
slot with that id is not disabled. -/
theorem isSlotAvailable_spec (slotId : Nat) (slots : List TimeSlot) (date : String)
    (cityId : Option Nat) (rules : List SlotDisableRule) :
    ((∀ s ∈ slots, s.id ≠ slotId) →
      isSlotAvailable slotId slots date cityId rules = false) ∧
    (∀ s, slots.find? (fun t => t.id == slotId) = some s →
      isSlotAvailable slotId slots date cityId rules =
        !(checkSlotAvailability s date cityId rules).disabled) := by
  constructor
  · intro h
    have hn : slots.find? (fun s => s.id == slotId) = none := by
      rw [List.find?_eq_none]
      intro s hs
      simp [h s hs]
    simp [isSlotAvailable, hn]
  · intro s hs
    simp [isSlotAvailable, hs]

/-- Witness for C10: an empty slot collection yields false. -/
theorem isSlotAvailable_spec_witness :
    (∀ s ∈ ([] : List TimeSlot), s.id ≠ 1) ∧
    isSlotAvailable 1 [] "2024-12-25" none [] = false :=
  ⟨by simp, (isSlotAvailable_spec 1 [] "2024-12-25" none []).1 (by simp)⟩

/-! ## Day numbering

`toRD` assigns every civil date a day number (the timestamp of its local
midnight, in days).  On component-valid dates it is strictly increasing along
`nextDay`, and injective, which is what connects the JS `Date` comparison
`current <= end` and the day-walking loops to calendar intervals. -/

/-- Days in the months of year `y` strictly before month `m` (so
`daysBeforeMonth y 1 = 0`). -/
def daysBeforeMonth (y : Nat) : Nat → Nat
  | 0 => 0
  | m + 1 => if m = 0 then 0 else daysBeforeMonth y m + daysInMonth y m

/-- Number of days of year `y`. -/
def daysInYear (y : Nat) : Nat := if isLeap y then 366 else 365

/-- Days in the years strictly before year `y` (counting from year 0, which is leap). -/
def daysBeforeYear (y : Nat) : Nat :=
  365 * y + (y + 3) / 4 - (y + 99) / 100 + (y + 399) / 400

/-- Day number of a civil date. -/
def toRD (c : CivilDate) : Nat :=
  daysBeforeYear c.year + daysBeforeMonth c.year c.month + c.day

theorem isLeap_iff (y : Nat) :
    isLeap y = true ↔ (y % 4 = 0 ∧ (y % 100 ≠ 0 ∨ y % 400 = 0)) := by
  simp [isLeap]

set_option maxHeartbeats 1600000 in
theorem daysBeforeYear_succ (y : Nat) :
    daysBeforeYear (y + 1) = daysBeforeYear y + daysInYear y := by
  unfold daysBeforeYear daysInYear
  simp only [isLeap_iff]
  split_ifs with h
  · obtain ⟨h4, h1⟩ := h
    rcases h1 with h100 | h400
    · omega
    · omega
  · by_cases h4 : y % 4 = 0
    · by_cases h100 : y % 100 = 0
      · by_cases h400 : y % 400 = 0
        · exact absurd ⟨h4, Or.inr h400⟩ h
        · clear h
          omega
      · exact absurd ⟨h4, Or.inl h100⟩ h
    · clear h
      omega

theorem daysBeforeMonth_succ (y m : Nat) (h : 1 ≤ m) :
    daysBeforeMonth y (m + 1) = daysBeforeMonth y m + daysInMonth y m := by
  have hne : ¬ m = 0 := by omega
  simp [daysBeforeMonth, hne]

theorem daysBeforeMonth_13 (y : Nat) : daysBeforeMonth y 13 = daysInYear y := by
  by_cases hL : isLeap y <;>
    simp [daysBeforeMonth, daysInMonth, daysInYear, hL]

theorem daysBeforeMonth_mono (y a b : Nat) (ha : 1 ≤ a) (hab : a ≤ b) :
    daysBeforeMonth y a ≤ daysBeforeMonth y b := by
  induction b with
  | zero => omega
  | succ b ih =>
    rcases Nat.lt_or_ge a (b + 1) with hlt | hge
    · have hb : 1 ≤ b := by omega
      have h1 := ih (by omega)
      rw [daysBeforeMonth_succ y b hb]
      omega
    · have : a = b + 1 := by omega
      rw [this]

theorem toRD_nextDay (c : CivilDate) (h : ValidDate c) : toRD (nextDay c) = toRD c + 1 := by
  obtain ⟨h1, h2, h3, h4⟩ := h
  unfold nextDay
  by_cases hd : c.day < daysInMonth c.year c.month
  · rw [if_pos hd]
    show daysBeforeYear c.year + daysBeforeMonth c.year c.month + (c.day + 1) =
      daysBeforeYear c.year + daysBeforeMonth c.year c.month + c.day + 1
    omega
  · rw [if_neg hd]
    have hday : c.day = daysInMonth c.year c.month := by omega
    by_cases hm : c.month < 12
    · rw [if_pos hm]
      show daysBeforeYear c.year + daysBeforeMonth c.year (c.month + 1) + 1 =
        daysBeforeYear c.year + daysBeforeMonth c.year c.month + c.day + 1
      rw [daysBeforeMonth_succ c.year c.month h1]
      omega
    · rw [if_neg hm]
      have hm12 : c.month = 12 := by omega
      show daysBeforeYear (c.year + 1) + daysBeforeMonth (c.year + 1) 1 + 1 =
        daysBeforeYear c.year + daysBeforeMonth c.year c.month + c.day + 1
      rw [daysBeforeYear_succ]
      have h13 : daysBeforeMonth c.year 13 = daysInYear c.year := daysBeforeMonth_13 c.year
      have hsucc : daysBeforeMonth c.year 13 =
          daysBeforeMonth c.year 12 + daysInMonth c.year 12 :=
        daysBeforeMonth_succ c.year 12 (by omega)
      have hdim12 : daysInMonth c.year 12 = 31 := rfl
      have hdbm1 : daysBeforeMonth (c.year + 1) 1 = 0 := rfl
      rw [hm12] at hday
      rw [hm12]
      rw [hdim12] at hday
      omega

theorem validDate_nextDay (c : CivilDate) (h : ValidDate c) : ValidDate (nextDay c) := by
  obtain ⟨h1, h2, h3, h4⟩ := h
  unfold nextDay
  by_cases hd : c.day < daysInMonth c.year c.month
  · rw [if_pos hd]
    show 1 ≤ c.month ∧ c.month ≤ 12 ∧ 1 ≤ c.day + 1 ∧
      c.day + 1 ≤ daysInMonth c.year c.month
    exact ⟨h1, h2, by omega, by omega⟩
  · rw [if_neg hd]
    by_cases hm : c.month < 12
    · rw [if_pos hm]
      show 1 ≤ c.month + 1 ∧ c.month + 1 ≤ 12 ∧ 1 ≤ 1 ∧
        1 ≤ daysInMonth c.year (c.month + 1)
      have hge := daysInMonth_ge c.year (c.month + 1)
      exact ⟨by omega, by omega, by omega, by omega⟩
    · rw [if_neg hm]
      show 1 ≤ 1 ∧ 1 ≤ 12 ∧ 1 ≤ 1 ∧ 1 ≤ daysInMonth (c.year + 1) 1
      have hge := daysInMonth_ge (c.year + 1) 1
      exact ⟨by omega, by omega, by omega, by omega⟩

theorem toRD_year_bounds (c : CivilDate) (h : ValidDate c) :
    daysBeforeYear c.year + 1 ≤ toRD c ∧
      toRD c ≤ daysBeforeYear c.year + daysInYear c.year := by
  obtain ⟨h1, h2, h3, h4⟩ := h
  unfold toRD
  constructor
  · omega
  · have hm13 : daysBeforeMonth c.year c.month + daysInMonth c.year c.month ≤
        daysInYear c.year := by
      rw [← daysBeforeMonth_succ c.year c.month h1, ← daysBeforeMonth_13]
      exact daysBeforeMonth_mono c.year (c.month + 1) 13 (by omega) (by omega)
    omega

theorem daysBeforeYear_lt (y1 y2 : Nat) (h : y1 < y2) :
    daysBeforeYear y1 + daysInYear y1 ≤ daysBeforeYear y2 := by
  induction y2 with
  | zero => omega
  | succ b ih =>
    rcases Nat.lt_or_ge y1 b with hb | hb
    · have h1 := ih hb
      rw [daysBeforeYear_succ]
      omega
    · have : y1 = b := by omega
      rw [this, daysBeforeYear_succ]

theorem toRD_year_inj (c1 c2 : CivilDate) (h1 : ValidDate c1) (h2 : ValidDate c2)
    (h : toRD c1 = toRD c2) : c1.year = c2.year := by
  by_contra hne
  rcases Nat.lt_or_ge c1.year c2.year with hlt | hge
  · have b1 := (toRD_year_bounds c1 h1).2
    have b2 := (toRD_year_bounds c2 h2).1
    have h3 := daysBeforeYear_lt _ _ hlt
    omega
  · have hlt : c2.year < c1.year := by omega
    have b1 := (toRD_year_bounds c1 h1).1
    have b2 := (toRD_year_bounds c2 h2).2
    have h3 := daysBeforeYear_lt _ _ hlt
    omega

theorem toRD_month_lt (y m1 d1 m2 d2 : Nat) (v1 : ValidDate ⟨y, m1, d1⟩)
    (v2 : ValidDate ⟨y, m2, d2⟩) (h : m1 < m2) :
    toRD ⟨y, m1, d1⟩ < toRD ⟨y, m2, d2⟩ := by
  have a1 : 1 ≤ m1 := v1.1
  have a4 : d1 ≤ daysInMonth y m1 := v1.2.2.2
  have b3 : 1 ≤ d2 := v2.2.2.1
  show daysBeforeYear y + daysBeforeMonth y m1 + d1 <
    daysBeforeYear y + daysBeforeMonth y m2 + d2
  have hs : daysBeforeMonth y (m1 + 1) = daysBeforeMonth y m1 + daysInMonth y m1 :=
    daysBeforeMonth_succ y m1 a1
  have hmono : daysBeforeMonth y (m1 + 1) ≤ daysBeforeMonth y m2 :=
    daysBeforeMonth_mono y (m1 + 1) m2 (by omega) (by omega)
  omega

theorem toRD_inj (c1 c2 : CivilDate) (h1 : ValidDate c1) (h2 : ValidDate c2)
    (h : toRD c1 = toRD c2) : c1 = c2 := by
  obtain ⟨y1, m1, d1⟩ := c1
  obtain ⟨y2, m2, d2⟩ := c2
  have hy : y1 = y2 := toRD_year_inj ⟨y1, m1, d1⟩ ⟨y2, m2, d2⟩ h1 h2 h
  subst hy
  have hm : m1 = m2 := by
    by_contra hne
    rcases Nat.lt_or_ge m1 m2 with hlt | hge
    · exact absurd h (Nat.ne_of_lt (toRD_month_lt y1 m1 d1 m2 d2 h1 h2 hlt))
    · have hlt : m2 < m1 := by omega
      exact absurd h.symm (Nat.ne_of_lt (toRD_month_lt y1 m2 d2 m1 d1 h2 h1 hlt))
  subst hm
  have hd : d1 = d2 := by
    have h' : daysBeforeYear y1 + daysBeforeMonth y1 m1 + d1 =
        daysBeforeYear y1 + daysBeforeMonth y1 m1 + d2 := h
    omega
  rw [hd]

theorem iterate_nextDay_valid (c : CivilDate) (h : ValidDate c) (k : Nat) :
    ValidDate (nextDay^[k] c) ∧ toRD (nextDay^[k] c) = toRD c + k := by
  induction k with
  | zero => exact ⟨h, rfl⟩
  | succ n ih =>
    rw [Function.iterate_succ_apply']
    refine ⟨validDate_nextDay _ ih.1, ?_⟩
    rw [toRD_nextDay _ ih.1, ih.2]
    omega

theorem iterate_nextDay_reach (k : Nat) :
    ∀ c x, ValidDate c → ValidDate x → toRD x = toRD c + k → nextDay^[k] c = x := by
  induction k with
  | zero =>
    intro c x hc hx h
    simpa using toRD_inj c x hc hx (by omega)
  | succ n ih =>
    intro c x hc hx h
    rw [Function.iterate_succ_apply]
    refine ih (nextDay c) x (validDate_nextDay c hc) hx ?_
    rw [toRD_nextDay c hc]
    omega

/-! ## Decimal formatting of dates -/

/-- Fuel-driven decimal digit rendering (structural recursion, so concrete values
evaluate); `natDigits` supplies enough fuel for any number. -/
def natDigitsAux : Nat → Nat → List Char
  | 0, _ => []
  | fuel + 1, n =>
    if n < 10 then [Char.ofNat (48 + n)]
    else natDigitsAux fuel (n / 10) ++ [Char.ofNat (48 + n % 10)]

/-- Decimal digit characters of `n` — the rendering a JS template literal performs on
the non-negative integers `getFullYear()`, `getMonth() + 1` and `getDate()` return. -/
def natDigits (n : Nat) : List Char := natDigitsAux (n + 1) n

theorem natDigitsAux_fuel (n : Nat) :
    ∀ f1 f2, n < f1 → n < f2 → natDigitsAux f1 n = natDigitsAux f2 n := by
  induction n using Nat.strong_induction_on with
  | _ n ih =>
    intro f1 f2 h1 h2
    cases f1 with
    | zero => omega
    | succ g1 =>
      cases f2 with
      | zero => omega
      | succ g2 =>
        by_cases hn : n < 10
        · simp [natDigitsAux, hn]
        · simp only [natDigitsAux, if_neg hn]
          congr 1
          exact ih (n / 10) (by omega) g1 g2 (by omega) (by omega)

theorem natDigits_lt10 (n : Nat) (h : n < 10) :
    natDigits n = [Char.ofNat (48 + n)] := by
  simp [natDigits, natDigitsAux, h]

theorem natDigits_ge10 (n : Nat) (h : 10 ≤ n) :
    natDigits n = natDigits (n / 10) ++ [Char.ofNat (48 + n % 10)] := by
  have hne : ¬ n < 10 := by omega
  show natDigitsAux (n + 1) n = _
  simp only [natDigitsAux, if_neg hne]
  congr 1
  exact natDigitsAux_fuel (n / 10) n (n / 10 + 1) (by omega) (by omega)

theorem digitChar_inj (a b : Nat) (ha : a < 10) (hb : b < 10)
    (h : Char.ofNat (48 + a) = Char.ofNat (48 + b)) : a = b := by
  interval_cases a <;> interval_cases b <;> revert h <;> decide

theorem natDigits_ne_nil (n : Nat) : natDigits n ≠ [] := by
  by_cases h : n < 10
  · rw [natDigits_lt10 n h]
    simp
  · rw [natDigits_ge10 n (by omega)]
    simp

theorem natDigits_inj (a : Nat) : ∀ b, natDigits a = natDigits b → a = b := by
  induction a using Nat.strong_induction_on with
  | _ a ih =>
    intro b h
    by_cases ha : a < 10 <;> by_cases hb : b < 10
    · rw [natDigits_lt10 a ha, natDigits_lt10 b hb] at h
      have h0 : Char.ofNat (48 + a) = Char.ofNat (48 + b) := by injection h
      exact digitChar_inj a b ha hb h0
    · rw [natDigits_lt10 a ha, natDigits_ge10 b (by omega)] at h
      have hlen := congrArg List.length h
      simp only [List.length_cons, List.length_append, List.length_nil] at hlen
      have hnil : natDigits (b / 10) = [] := List.length_eq_zero.mp (by omega)
      exact absurd hnil (natDigits_ne_nil _)
    · rw [natDigits_ge10 a (by omega), natDigits_lt10 b hb] at h
      have hlen := congrArg List.length h
      simp only [List.length_cons, List.length_append, List.length_nil] at hlen
      have hnil : natDigits (a / 10) = [] := List.length_eq_zero.mp (by omega)
      exact absurd hnil (natDigits_ne_nil _)
    · rw [natDigits_ge10 a (by omega), natDigits_ge10 b (by omega)] at h
      obtain ⟨h1, h2⟩ := List.append_inj' h (by simp)
      have hq := ih (a / 10) (by omega) (b / 10) h1
      have h0 : Char.ofNat (48 + a % 10) = Char.ofNat (48 + b % 10) := by injection h2
      have hr := digitChar_inj (a % 10) (b % 10) (by omega) (by omega) h0
      omega

/-- Embedding of `String(n).padStart(2, "0")` for the month and day components
(`natDigits` is never empty, so at most one `'0'` is prepended). -/
def pad2 (n : Nat) : List Char :=
  if (natDigits n).length < 2 then '0' :: natDigits n else natDigits n

theorem natDigits_length2 (n : Nat) (h1 : 10 ≤ n) (h2 : n < 100) :
    natDigits n = [Char.ofNat (48 + n / 10), Char.ofNat (48 + n % 10)] := by
  rw [natDigits_ge10 n h1, natDigits_lt10 (n / 10) (by omega)]
  rfl

theorem pad2_length (n : Nat) (h : n < 100) : (pad2 n).length = 2 := by
  by_cases h10 : n < 10
  · simp [pad2, natDigits_lt10 n h10]
  · simp [pad2, natDigits_length2 n (by omega) h]

theorem pad2_eq_lt10 (n : Nat) (h : n < 10) : pad2 n = ['0', Char.ofNat (48 + n)] := by
  simp [pad2, natDigits_lt10 n h]

theorem pad2_eq_ge10 (n : Nat) (h1 : 10 ≤ n) (h2 : n < 100) :
    pad2 n = [Char.ofNat (48 + n / 10), Char.ofNat (48 + n % 10)] := by
  rw [pad2, if_neg (by rw [natDigits_length2 n h1 h2]; simp)]
  exact natDigits_length2 n h1 h2

theorem pad2_inj (a b : Nat) (ha : a < 100) (hb : b < 100) (h : pad2 a = pad2 b) :
    a = b := by
  by_cases ha10 : a < 10 <;> by_cases hb10 : b < 10
  · rw [pad2_eq_lt10 a ha10, pad2_eq_lt10 b hb10] at h
    have h0 : Char.ofNat (48 + a) = Char.ofNat (48 + b) := by
      injection h with hhead htail
      injection htail
    exact digitChar_inj a b ha10 hb10 h0
  · rw [pad2_eq_lt10 a ha10, pad2_eq_ge10 b (by omega) hb] at h
    have h0 : ('0' : Char) = Char.ofNat (48 + b / 10) := by injection h
    have h0' : Char.ofNat (48 + 0) = Char.ofNat (48 + b / 10) := h0
    have := digitChar_inj 0 (b / 10) (by omega) (by omega) h0'
    omega
  · rw [pad2_eq_ge10 a (by omega) ha, pad2_eq_lt10 b hb10] at h
    have h0 : Char.ofNat (48 + a / 10) = ('0' : Char) := by injection h
    have h0' : Char.ofNat (48 + a / 10) = Char.ofNat (48 + 0) := h0
    have := digitChar_inj (a / 10) 0 (by omega) (by omega) h0'
    omega
  · rw [pad2_eq_ge10 a (by omega) ha, pad2_eq_ge10 b (by omega) hb] at h
    have hd : Char.ofNat (48 + a / 10) = Char.ofNat (48 + b / 10) := by injection h
    have hm : Char.ofNat (48 + a % 10) = Char.ofNat (48 + b % 10) := by
      injection h with hhead htail
      injection htail
    have e1 := digitChar_inj (a / 10) (b / 10) (by omega) (by omega) hd
    have e2 := digitChar_inj (a % 10) (b % 10) (by omega) (by omega) hm
    omega

/-- Embedding of `formatDateToString` (`dateAvailabilityService.ts` lines 100-105):
decimal year, 2-padded month and day, joined with dashes. -/
def formatDateToString (c : CivilDate) : String :=
  ⟨natDigits c.year ++ '-' :: (pad2 c.month ++ '-' :: pad2 c.day)⟩

theorem formatDateToString_inj (c1 c2 : CivilDate) (h1 : ValidDate c1)
    (h2 : ValidDate c2) (h : formatDateToString c1 = formatDateToString c2) :
    c1 = c2 := by
  obtain ⟨y1, m1, d1⟩ := c1
  obtain ⟨y2, m2, d2⟩ := c2
  have hm1 : 1 ≤ m1 ∧ m1 ≤ 12 ∧ 1 ≤ d1 ∧ d1 ≤ daysInMonth y1 m1 := h1
  have hm2 : 1 ≤ m2 ∧ m2 ≤ 12 ∧ 1 ≤ d2 ∧ d2 ≤ daysInMonth y2 m2 := h2
  have hd1 : d1 < 100 := by
    have := daysInMonth_le y1 m1
    omega
  have hd2 : d2 < 100 := by
    have := daysInMonth_le y2 m2
    omega
  have hdata : natDigits y1 ++ '-' :: (pad2 m1 ++ '-' :: pad2 d1) =
      natDigits y2 ++ '-' :: (pad2 m2 ++ '-' :: pad2 d2) := congrArg String.data h
  have hl1 : ('-' :: (pad2 m1 ++ '-' :: pad2 d1)).length =
      ('-' :: (pad2 m2 ++ '-' :: pad2 d2)).length := by
    simp [List.length_append, pad2_length m1 (by omega), pad2_length d1 (by omega),
      pad2_length m2 (by omega), pad2_length d2 (by omega)]
  obtain ⟨hy, hrest⟩ := List.append_inj' hdata hl1
  have hyear := natDigits_inj y1 y2 hy
  have hrest2 : pad2 m1 ++ '-' :: pad2 d1 = pad2 m2 ++ '-' :: pad2 d2 := by
    injection hrest
  obtain ⟨hmth, hday⟩ := List.append_inj hrest2
    (by rw [pad2_length m1 (by omega), pad2_length m2 (by omega)])
  have hmonth := pad2_inj m1 m2 (by omega) (by omega) hmth
  have hday2 : pad2 d1 = pad2 d2 := by injection hday
  have hdd := pad2_inj d1 d2 hd1 hd2 hday2
  rw [hyear, hmonth, hdd]

/-! ## Canonical strings: whitespace-freeness and idempotence -/

theorem not_ws_of_digit {c : Char} (h : isDigitChar c = true) : isWS c = false := by
  have hb : 48 ≤ c.toNat ∧ c.toNat ≤ 57 := by simpa [isDigitChar] using h
  simp only [isWS, Bool.or_eq_false_iff, beq_eq_false_iff_ne, ne_eq]
  omega

theorem dropWhile_eq_self_of_all (p : Char → Bool) (cs : List Char)
    (h : ∀ c ∈ cs, p c = false) : cs.dropWhile p = cs := by
  cases cs with
  | nil => rfl
  | cons c rest =>
    have hc : ¬ p c = true := by simp [h c (List.mem_cons_self c rest)]
    exact List.dropWhile_cons_of_neg hc

theorem jsTrimList_eq_self (cs : List Char) (h : ∀ c ∈ cs, isWS c = false) :
    jsTrimList cs = cs := by
  unfold jsTrimList
  rw [dropWhile_eq_self_of_all isWS cs h]
  rw [dropWhile_eq_self_of_all isWS cs.reverse (fun c hc => h c (List.mem_reverse.mp hc))]
  exact List.reverse_reverse cs

theorem matchISOChars_shape (cs : List Char) (y m d : Nat)
    (h : matchISOChars cs = some (y, m, d)) :
    ∃ y1 y2 y3 y4 m1 m2 d1 d2,
      cs = [y1, y2, y3, y4, '-', m1, m2, '-', d1, d2] ∧
      isDigitChar y1 = true ∧ isDigitChar y2 = true ∧ isDigitChar y3 = true ∧
      isDigitChar y4 = true ∧ isDigitChar m1 = true ∧ isDigitChar m2 = true ∧
      isDigitChar d1 = true ∧ isDigitChar d2 = true := by
  unfold matchISOChars at h
  split at h
  · rename_i y1 y2 y3 y4 s1 m1 m2 s2 d1 d2
    split at h
    · rename_i hcond
      obtain ⟨hs1, hs2, hy1, hy2, hy3, hy4, hm1, hm2, hd1, hd2⟩ := hcond
      subst hs1
      subst hs2
      exact ⟨y1, y2, y3, y4, m1, m2, d1, d2, rfl, hy1, hy2, hy3, hy4, hm1, hm2, hd1, hd2⟩
    · exact absurd h (by simp)
  · exact absurd h (by simp)

theorem normalizeDate_shape (s ns : String) (h : normalizeDate s = some ns) :
    ∃ y m d, matchISOChars ns.data = some (y, m, d) ∧
      isValidDateComponents y m d = true := by
  unfold normalizeDate at h
  by_cases h0 : s = ""
  · rw [if_pos h0] at h
    exact Option.noConfusion h
  · rw [if_neg h0] at h
    cases hiso : matchISOChars (jsTrimList s.data) with
    | some t =>
      obtain ⟨y, m, d⟩ := t
      simp only [hiso] at h
      split at h
      · rename_i hv
        rw [Option.some_inj] at h
        subst h
        exact ⟨y, m, d, hiso, hv⟩
      · exact Option.noConfusion h
    | none =>
      simp only [hiso] at h
      cases heuro : matchEuroChars (jsTrimList s.data) with
      | some t =>
        obtain ⟨y, m, d, rb⟩ := t
        simp only [heuro] at h
        split at h
        · rename_i hv
          rw [Option.some_inj] at h
          subst h
          exact ⟨y, m, d, matchEuroChars_rebuilt _ _ _ _ _ heuro, hv⟩
        · exact Option.noConfusion h
      | none =>
        simp only [heuro] at h
        exact Option.noConfusion h

theorem normalizeDate_idem (s ns : String) (h : normalizeDate s = some ns) :
    normalizeDate ns = some ns := by
  obtain ⟨y, m, d, hm, hv⟩ := normalizeDate_shape s ns h
  obtain ⟨y1, y2, y3, y4, m1, m2, d1, d2, hshape, hdigs⟩ := matchISOChars_shape _ _ _ _ hm
  have hne : ns ≠ "" := by
    intro h0
    rw [h0] at hm
    exact Option.noConfusion hm
  have hws : ∀ c ∈ ns.data, isWS c = false := by
    rw [hshape]
    intro c hc
    simp only [List.mem_cons, List.not_mem_nil, or_false] at hc
    obtain ⟨g1, g2, g3, g4, g5, g6, g7, g8⟩ := hdigs
    rcases hc with rfl | rfl | rfl | rfl | rfl | rfl | rfl | rfl | rfl | rfl
    · exact not_ws_of_digit g1
    · exact not_ws_of_digit g2
    · exact not_ws_of_digit g3
    · exact not_ws_of_digit g4
    · decide
    · exact not_ws_of_digit g5
    · exact not_ws_of_digit g6
    · decide
    · exact not_ws_of_digit g7
    · exact not_ws_of_digit g8
  have htrim : jsTrimList ns.data = ns.data := jsTrimList_eq_self _ hws
  unfold normalizeDate
  rw [if_neg hne, htrim, hm]
  show (if isValidDateComponents y m d = true then some (jsTrim ns) else none) = some ns
  rw [if_pos hv]
  show some (⟨jsTrimList ns.data⟩ : String) = some ns
  rw [htrim]

theorem parseDate_none (s : String) (h : normalizeDate s = none) : parseDate s = none := by
  unfold parseDate
  rw [h]

theorem parseDate_of_normalizeDate (s ns : String) (h : normalizeDate s = some ns) :
    ∃ y m d, matchISOChars ns.data = some (y, m, d) ∧
      isValidDateComponents y m d = true ∧
      parseDate s = some ⟨y, m, d⟩ ∧ parseDate ns = some ⟨y, m, d⟩ ∧
      ValidDate (⟨y, m, d⟩ : CivilDate) := by
  obtain ⟨y, m, d, hm, hv⟩ := normalizeDate_shape s ns h
  have hidem := normalizeDate_idem s ns h
  have hvd : ValidDate (⟨y, m, d⟩ : CivilDate) := by
    have hc := (isValidDateComponents_iff y m d).mp hv
    exact ⟨hc.1, hc.2.1, hc.2.2.1, hc.2.2.2⟩
  refine ⟨y, m, d, hm, hv, ?_, ?_, hvd⟩
  · unfold parseDate
    simp only [h, hm]
  · unfold parseDate
    simp only [hidem, hm]

theorem parseDate_valid (s : String) (c : CivilDate) (h : parseDate s = some c) :
    ValidDate c := by
  cases hn : normalizeDate s with
  | none =>
    rw [parseDate_none s hn] at h
    exact Option.noConfusion h
  | some ns =>
    obtain ⟨y, m, d, hm, hv, hp, hpn, hvd⟩ := parseDate_of_normalizeDate s ns hn
    rw [hp] at h
    rw [Option.some_inj] at h
    rw [← h]
    exact hvd

/-! ## Date availability service: disabled sets and the date window -/

/-- Date disable rule shape consumed by `buildDisabledDateSet` and
`getAvailableDates`. -/
structure DateRule where
  startDate : String
  endDate : Option String
  cityId : Option Nat
deriving DecidableEq

/-- Embedding of the applicability test in `buildDisabledDateSet`:
`!rule.cityId || (cityId && rule.cityId === cityId)`, with JS number truthiness. -/
def dateRuleApplies (r : DateRule) (cityId : Option Nat) : Bool :=
  !truthyNum r.cityId || (truthyNum cityId && r.cityId == cityId)

/-- Embedding of the `while (current <= end)` loop of `buildDisabledDateSet`:
comparing two local-midnight `Date`s is comparing their day numbers; on valid dates
the fuel `toRD e + 1 - toRD current` is exactly the iteration count. -/
def rangeStringsAux : Nat → CivilDate → CivilDate → List String
  | 0, _, _ => []
  | fuel + 1, current, e =>
    if toRD current ≤ toRD e then
      formatDateToString current :: rangeStringsAux fuel (nextDay current) e
    else []

/-- Formatted dates of the inclusive day range from `current` to `e`. -/
def rangeStrings (current e : CivilDate) : List String :=
  rangeStringsAux (toRD e + 1 - toRD current) current e

/-- Embedding of one iteration of the rule loop in `buildDisabledDateSet`
(`dateAvailabilityService.ts` lines 179-200): inapplicable rules and unparseable start
dates contribute nothing; a falsy or unnormalizable `endDate` makes `end = current`. -/
def expandDateRule (r : DateRule) (cityId : Option Nat) : List String :=
  if !dateRuleApplies r cityId then []
  else
    match normalizeDate r.startDate with
    | none => []
    | some sStr =>
      let endDateStr : Option String :=
        if truthyStr r.endDate then normalizeDate (r.endDate.getD "") else none
      match parseDate sStr with
      | none => []
      | some current =>
        match (match endDateStr with
               | some es => parseDate es
               | none => some current) with
        | none => []
        | some e => rangeStrings current e

/-- Embedding of `buildDisabledDateSet` (lines 173-203); the JS `Set` of strings is
modelled as a list with membership lookup. -/
def buildDisabledDateSet (dateRules : List DateRule) (cityId : Option Nat) :
    List String :=
  dateRules.foldl (fun acc r => acc ++ expandDateRule r cityId) []

/-- Embedding of `normalizeDisabledDates` (lines 133-144). -/
def normalizeDisabledDates (disabledDates : List String) : List String :=
  disabledDates.foldl (fun acc s =>
    match normalizeDate s with
    | some n => acc ++ [n]
    | none => acc) []

/-- Polymorphic `disabledDates` argument of `getAvailableDates` (JS discriminates the
union by `typeof disabledDates[0] === "string"`). -/
inductive DisableSource where
  | strings : List String → DisableSource
  | rules : List DateRule → DisableSource
deriving DecidableEq

/-- Day-walking loop of `getAvailableDates` (lines 263-277). -/
def walkDates : Nat → CivilDate → List String → List String
  | 0, _, _ => []
  | n + 1, currentDate, disabledSet =>
    let dateStr := formatDateToString currentDate
    (if disabledSet.contains dateStr then [] else [dateStr]) ++
      walkDates n (nextDay currentDate) disabledSet

/-- Embedding of `getAvailableDates` (lines 230-280): a non-positive `daysToShow`
short-circuits to the empty list, and an empty source of either kind gives the empty
disabled set. -/
def getAvailableDates (startDate : CivilDate) (daysToShow : Int)
    (disabledDates : DisableSource) (cityId : Option Nat) : List String :=
  if daysToShow ≤ 0 then []
  else
    let disabledSet : List String :=
      match disabledDates with
      | .strings l => if l.isEmpty then [] else normalizeDisabledDates l
      | .rules rl => if rl.isEmpty then [] else buildDisabledDateSet rl cityId
    walkDates daysToShow.toNat startDate disabledSet

/-- End of the day range the loop runs to, for a rule whose parsed start date is `a`:
the parsed `endDate` when that field is truthy and normalizes, else `a` itself. -/
def ruleEndDate (r : DateRule) (a : CivilDate) : CivilDate :=
  match (if truthyStr r.endDate then normalizeDate (r.endDate.getD "") else none) with
  | some es => (parseDate es).getD a
  | none => a

/-- Disabledness of a day `w` under the range rules as the claim describes it (with JS
falsiness): some rule applies to the supplied city, and `w` lies — by day number —
between the rule's parsed start date and its end date, inclusive. -/
def disabledByRules (rules : List DateRule) (cityId : Option Nat) (w : CivilDate) :
    Bool :=
  rules.any (fun r =>
    dateRuleApplies r cityId &&
      match parseDate r.startDate with
      | some a => decide (toRD a ≤ toRD w) && decide (toRD w ≤ toRD (ruleEndDate r a))
      | none => false)

theorem mem_foldl_append {α β : Type} (f : β → List α) (l : List β) (init : List α)
    (x : α) :
    (x ∈ l.foldl (fun acc r => acc ++ f r) init ↔ x ∈ init ∨ ∃ r ∈ l, x ∈ f r) := by
  induction l generalizing init with
  | nil => simp
  | cons b bs ih =>
    rw [List.foldl_cons, ih]
    simp only [List.mem_append, List.mem_cons]
    constructor
    · rintro ((hx | hx) | ⟨r, hr, hx⟩)
      · exact Or.inl hx
      · exact Or.inr ⟨b, Or.inl rfl, hx⟩
      · exact Or.inr ⟨r, Or.inr hr, hx⟩
    · rintro (hx | ⟨r, hr | hr, hx⟩)
      · exact Or.inl (Or.inl hx)
      · exact Or.inl (Or.inr (hr ▸ hx))
      · exact Or.inr ⟨r, hr, hx⟩

theorem mem_rangeStringsAux (e : CivilDate) (s : String) :
    ∀ (fuel : Nat) (c : CivilDate), ValidDate c →
      (s ∈ rangeStringsAux fuel c e ↔
        ∃ k, k < fuel ∧ toRD c + k ≤ toRD e ∧
          s = formatDateToString (nextDay^[k] c)) := by
  intro fuel
  induction fuel with
  | zero =>
    intro c hc
    simp [rangeStringsAux]
  | succ f ih =>
    intro c hc
    rw [rangeStringsAux]
    by_cases hle : toRD c ≤ toRD e
    · rw [if_pos hle, List.mem_cons, ih (nextDay c) (validDate_nextDay c hc)]
      constructor
      · rintro (rfl | ⟨k, hk, hkle, rfl⟩)
        · exact ⟨0, by omega, by omega, by simp⟩
        · refine ⟨k + 1, by omega, ?_, ?_⟩
          · rw [toRD_nextDay c hc] at hkle
            omega
          · rw [Function.iterate_succ_apply]
      · rintro ⟨k, hk, hkle, rfl⟩
        cases k with
        | zero => exact Or.inl (by simp)
        | succ k2 =>
          refine Or.inr ⟨k2, by omega, ?_, ?_⟩
          · rw [toRD_nextDay c hc]
            omega
          · rw [Function.iterate_succ_apply]
    · rw [if_neg hle]
      simp only [List.not_mem_nil, false_iff]
      rintro ⟨k, hk, hkle, rfl⟩
      omega

theorem format_mem_rangeStrings (a e w : CivilDate) (ha : ValidDate a)
    (hw : ValidDate w) :
    (formatDateToString w ∈ rangeStrings a e ↔
      toRD a ≤ toRD w ∧ toRD w ≤ toRD e) := by
  rw [rangeStrings, mem_rangeStringsAux e _ _ a ha]
  constructor
  · rintro ⟨k, hk, hkle, heq⟩
    have hvk := (iterate_nextDay_valid a ha k).1
    have hrd := (iterate_nextDay_valid a ha k).2
    have hww := formatDateToString_inj w (nextDay^[k] a) hw hvk heq
    rw [hww, hrd]
    omega
  · rintro ⟨h1, h2⟩
    refine ⟨toRD w - toRD a, by omega, by omega, ?_⟩
    rw [iterate_nextDay_reach (toRD w - toRD a) a w ha hw (by omega)]

theorem mem_expandDateRule (r : DateRule) (cityId : Option Nat) (w : CivilDate)
    (hw : ValidDate w) :
    (formatDateToString w ∈ expandDateRule r cityId ↔
      dateRuleApplies r cityId = true ∧
      ∃ a, parseDate r.startDate = some a ∧
        toRD a ≤ toRD w ∧ toRD w ≤ toRD (ruleEndDate r a)) := by
  unfold expandDateRule
  by_cases happ : dateRuleApplies r cityId
  · simp only [happ, Bool.not_true, Bool.false_eq_true, if_false, true_and]
    cases hn : normalizeDate r.startDate with
    | none =>
      rw [parseDate_none r.startDate hn]
      simp
    | some sStr =>
      obtain ⟨y, m, d, hmx, hv, hps, hpn, hvd⟩ :=
        parseDate_of_normalizeDate r.startDate sStr hn
      simp only [hpn, hps, Option.some.injEq]
      by_cases het : truthyStr r.endDate
      · cases hne : normalizeDate (r.endDate.getD "") with
        | none =>
          have hend : ruleEndDate r ⟨y, m, d⟩ = ⟨y, m, d⟩ := by
            simp [ruleEndDate, het, hne]
          simp only [het, if_true, hne, hend]
          rw [format_mem_rangeStrings _ _ w hvd hw]
          constructor
          · intro hb
            exact ⟨⟨y, m, d⟩, rfl, hb.1, by rw [hend]; exact hb.2⟩
          · rintro ⟨a, rfl, h1, h2⟩
            rw [hend] at h2
            exact ⟨h1, h2⟩
        | some es =>
          obtain ⟨y2, m2, d2, hm2, hv2, hps2, hpn2, hvd2⟩ :=
            parseDate_of_normalizeDate (r.endDate.getD "") es hne
          have hend : ruleEndDate r ⟨y, m, d⟩ = ⟨y2, m2, d2⟩ := by
            simp [ruleEndDate, het, hne, hpn2]
          simp only [het, if_true, hne, hpn2, hend]
          rw [format_mem_rangeStrings _ _ w hvd hw]
          constructor
          · intro hb
            exact ⟨⟨y, m, d⟩, rfl, hb.1, by rw [hend]; exact hb.2⟩
          · rintro ⟨a, rfl, h1, h2⟩
            rw [hend] at h2
            exact ⟨h1, h2⟩
      · have het' : truthyStr r.endDate = false := by simpa using het
        have hend : ruleEndDate r ⟨y, m, d⟩ = ⟨y, m, d⟩ := by
          simp [ruleEndDate, het']
        simp only [het', Bool.false_eq_true, if_false, hend]
        rw [format_mem_rangeStrings _ _ w hvd hw]
        constructor
        · intro hb
          exact ⟨⟨y, m, d⟩, rfl, hb.1, by rw [hend]; exact hb.2⟩
        · rintro ⟨a, rfl, h1, h2⟩
          rw [hend] at h2
          exact ⟨h1, h2⟩
  · have happ' : dateRuleApplies r cityId = false := by simpa using happ
    simp [happ']

theorem contains_iff_mem (l : List String) (s : String) :
    l.contains s = true ↔ s ∈ l := by
  show l.elem s = true ↔ s ∈ l
  exact List.elem_iff

theorem mem_buildDisabledDateSet (rules : List DateRule) (cityId : Option Nat)
    (w : CivilDate) (hw : ValidDate w) :
    (formatDateToString w ∈ buildDisabledDateSet rules cityId ↔
      disabledByRules rules cityId w = true) := by
  unfold buildDisabledDateSet disabledByRules
  rw [mem_foldl_append]
  simp only [List.not_mem_nil, false_or, List.any_eq_true]
  constructor
  · rintro ⟨r, hr, hmem⟩
    obtain ⟨happ, a, hpa, h1, h2⟩ := (mem_expandDateRule r cityId w hw).mp hmem
    refine ⟨r, hr, ?_⟩
    rw [happ, hpa]
    simp [h1, h2]
  · rintro ⟨r, hr, hb⟩
    rw [Bool.and_eq_true] at hb
    obtain ⟨happ, hb2⟩ := hb
    refine ⟨r, hr, (mem_expandDateRule r cityId w hw).mpr ⟨happ, ?_⟩⟩
    cases hpa : parseDate r.startDate with
    | none =>
      rw [hpa] at hb2
      exact absurd hb2 (by simp)
    | some a =>
      rw [hpa] at hb2
      simp only [Bool.and_eq_true, decide_eq_true_eq] at hb2
      exact ⟨a, rfl, hb2.1, hb2.2⟩

theorem filterMap_congr_mem {α β : Type} (l : List α) (f g : α → Option β)
    (h : ∀ a ∈ l, f a = g a) : l.filterMap f = l.filterMap g := by
  induction l with
  | nil => rfl
  | cons a as ih =>
    have ih2 := ih (fun x hx => h x (List.mem_cons_of_mem a hx))
    rw [List.filterMap_cons, List.filterMap_cons, h a (List.mem_cons_self a as), ih2]

theorem walkDates_eq (dis : List String) :
    ∀ (n : Nat) (c : CivilDate), walkDates n c dis =
      (((List.range n).map (fun i => nextDay^[i] c)).filter
        (fun w => !dis.contains (formatDateToString w))).map formatDateToString := by
  intro n
  induction n with
  | zero =>
    intro c
    rfl
  | succ n ih =>
    intro c
    have hlhs : walkDates (n + 1) c dis =
        (if dis.contains (formatDateToString c) then ([] : List String)
          else [formatDateToString c]) ++ walkDates n (nextDay c) dis := rfl
    have hcomp : ((fun i => nextDay^[i] c) ∘ Nat.succ) =
        (fun i => nextDay^[i] (nextDay c)) := by
      funext i
      simp [Function.iterate_succ_apply]
    rw [hlhs, ih (nextDay c), List.range_succ_eq_map, List.map_cons, List.filter_cons]
    simp only [Function.iterate_zero_apply, List.map_map, hcomp]
    by_cases hc : dis.contains (formatDateToString c)
    · rw [if_pos hc, if_neg (by rw [hc]; decide), List.nil_append]
    · have hc' : dis.contains (formatDateToString c) = false :=
        Bool.eq_false_iff.mpr hc
      rw [if_neg hc, if_pos (by rw [hc']; decide), List.map_cons,
        List.singleton_append]

theorem bool_eq_of_iff {a b : Bool} (h : a = true ↔ b = true) : a = b := by
  cases a <;> cases b <;> simp_all

/-- C2 counterexample: window of one day starting Dec 25 2024, one rule covering
exactly that day with `cityId: 0`, and no city supplied.  The claim says the rule has a
`cityId` that differs from the supplied city, so the day stays available; the code
treats `cityId: 0` as falsy ("no city"), applies the rule and disables the day,
returning the empty window. -/
theorem getAvailableDates_cityZero :
    getAvailableDates ⟨2024, 12, 25⟩ 1
      (DisableSource.rules [⟨"2024-12-25", none, some 0⟩]) none = [] ∧
    (⟨"2024-12-25", none, some 0⟩ : DateRule).cityId ≠ none ∧
    formatDateToString ⟨2024, 12, 25⟩ = "2024-12-25" :=
  ⟨by decide, by decide, by decide⟩

/-- C2 (amended): `getAvailableDates` with range rules returns, in chronological order,
exactly the canonical forms of those of the `daysToShow` consecutive days starting at
`startDate` that are not disabled, where a rule disables a day iff it applies to the
supplied city under JS falsiness — its `cityId` is absent or 0, or the supplied city id
is truthy and strictly equals it — and the day lies, by day number, between the rule's
parsed start and end dates inclusive (an absent or unparseable end date meaning the
single start day); a non-positive `daysToShow` yields the empty list; and with a plain
string list the excluded days are those whose canonical form is among the normalized
strings. -/
theorem getAvailableDates_spec (startDate : CivilDate) (hs : ValidDate startDate)
    (daysToShow : Int) (rules : List DateRule) (cityId : Option Nat) :
    getAvailableDates startDate daysToShow (DisableSource.rules rules) cityId =
      (((List.range daysToShow.toNat).map (fun i => addDays startDate i)).filter
        (fun w => !disabledByRules rules cityId w)).map formatDateToString ∧
    (daysToShow ≤ 0 →
      getAvailableDates startDate daysToShow (DisableSource.rules rules) cityId = []) ∧
    (∀ l : List String,
      getAvailableDates startDate daysToShow (DisableSource.strings l) cityId =
        (((List.range daysToShow.toNat).map (fun i => addDays startDate i)).filter
          (fun w => !(normalizeDisabledDates l).contains (formatDateToString w))).map
          formatDateToString) := by
  refine ⟨?_, ?_, ?_⟩
  · by_cases hneg : daysToShow ≤ 0
    · have h0 : daysToShow.toNat = 0 := Int.toNat_of_nonpos hneg
      unfold getAvailableDates
      rw [if_pos hneg, h0]
      rfl
    · unfold getAvailableDates
      rw [if_neg hneg]
      have hset : (if rules.isEmpty then ([] : List String)
          else buildDisabledDateSet rules cityId) = buildDisabledDateSet rules cityId := by
        cases rules with
        | nil => rfl
        | cons a t => rfl
      show walkDates daysToShow.toNat startDate
        (if rules.isEmpty then [] else buildDisabledDateSet rules cityId) = _
      rw [hset, walkDates_eq]
      simp only [addDays]
      congr 1
      apply List.filter_congr
      intro w hw
      obtain ⟨i, hi, rfl⟩ := List.mem_map.mp hw
      have hv := (iterate_nextDay_valid startDate hs i).1
      have hbool : (buildDisabledDateSet rules cityId).contains
          (formatDateToString (nextDay^[i] startDate)) =
          disabledByRules rules cityId (nextDay^[i] startDate) := by
        apply bool_eq_of_iff
        rw [contains_iff_mem]
        exact mem_buildDisabledDateSet rules cityId _ hv
      rw [hbool]
  · intro h
    unfold getAvailableDates
    rw [if_pos h]
  · intro l
    by_cases hneg : daysToShow ≤ 0
    · have h0 : daysToShow.toNat = 0 := Int.toNat_of_nonpos hneg
      unfold getAvailableDates
      rw [if_pos hneg, h0]
      rfl
    · unfold getAvailableDates
      rw [if_neg hneg]
      have hset : (if l.isEmpty then ([] : List String)
          else normalizeDisabledDates l) = normalizeDisabledDates l := by
        cases l with
        | nil => rfl
        | cons a t => rfl
      show walkDates daysToShow.toNat startDate
        (if l.isEmpty then [] else normalizeDisabledDates l) = _
      rw [hset, walkDates_eq]
      simp only [addDays]

/-- Witness for C2's amended theorem: a three-day window from Dec 24 2024 with one
global single-day rule on Dec 25. -/
theorem getAvailableDates_spec_witness :
    ValidDate ⟨2024, 12, 24⟩ ∧
    getAvailableDates ⟨2024, 12, 24⟩ 3
      (DisableSource.rules [⟨"2024-12-25", none, none⟩]) none =
      (((List.range (3 : Int).toNat).map (fun i => addDays ⟨2024, 12, 24⟩ i)).filter
        (fun w => !disabledByRules [⟨"2024-12-25", none, none⟩] none w)).map
        formatDateToString :=
  ⟨by decide, (getAvailableDates_spec ⟨2024, 12, 24⟩ (by decide) 3
    [⟨"2024-12-25", none, none⟩] none).1⟩

end Delivery
